import Mathlib

/-!
Verification of the sealed-pack subsystem of the Asking repository.

The Python sources are shallowly embedded: JSON values become a mutual
inductive (`JVal`/`JArr`/`JObj`), the canonical serializer
(`json.dumps(..., separators=(",", ":"), ensure_ascii=False)`) becomes the
`encV`/`encA`/`encO` family over `List Char`, and the workflow functions of
`src/ops/sealed_workflow.py`, `src/encrypt_full_pack.py`,
`src/encrypt_questions_pack.py`, `src/encrypt_maths_pack.py` and
`src/unseal_check.py` become Lean functions over these types.  Calls into
trusted cryptographic libraries (`hashlib.sha256`, PBKDF2, OpenSSL AES-GCM)
are modelled as function parameters, mirroring the spec's stance that the
primitives are provided by a trusted library; the byte level of UTF-8 is
elided (UTF-8 encoding of a char sequence is injective, so hashing the char
sequence is equivalent to hashing its UTF-8 bytes).
-/

namespace Asking

/-- Curly brace characters, used by the canonical JSON serializer. -/
def lbrace : Char := Char.ofNat 123

def rbrace : Char := Char.ofNat 125

mutual
/-- JSON-like values as produced by `json.loads` in the sources: strings,
integers, booleans, null, arrays and objects.  Objects keep the insertion
order of their fields, as Python dicts do.  (Floats do not occur in the
pack data handled by the claims and are omitted.) -/
inductive JVal where
  | str (s : String)
  | num (i : Int)
  | bool (b : Bool)
  | null
  | arr (xs : JArr)
  | obj (fs : JObj)
  deriving DecidableEq

inductive JArr where
  | nil
  | cons (v : JVal) (tl : JArr)
  deriving DecidableEq

inductive JObj where
  | nil
  | cons (k : String) (v : JVal) (tl : JObj)
  deriving DecidableEq
end

/-- Decimal digit character, as printed by Python's `repr` for `int`. -/
def digitChar (n : Nat) : Char := Char.ofNat (48 + n)

/-- Lowercase hexadecimal digit character, as produced by Python's
`'\u%04x'` formatting in `json.dumps` string escaping. -/
def hexChar (n : Nat) : Char :=
  if n < 10 then Char.ofNat (48 + n) else Char.ofNat (87 + n)

/-- Fuel-driven digit expansion; the fuel only bounds the recursion depth
and is irrelevant once it exceeds the argument (`natReprAux_fuel`). -/
def natReprAux : Nat → Nat → List Char
  | 0, _ => []
  | fuel + 1, n =>
      if n < 10 then [digitChar n]
      else natReprAux fuel (n / 10) ++ [digitChar (n % 10)]

/-- Decimal rendering of a natural number, most significant digit first;
mirrors Python's `repr` for nonnegative `int`. -/
def natRepr (n : Nat) : List Char := natReprAux (n + 1) n

theorem natReprAux_fuel : ∀ f₁ f₂ n, n < f₁ → n < f₂ →
    natReprAux f₁ n = natReprAux f₂ n
  | f₁ + 1, f₂ + 1, n, h₁, h₂ => by
    simp only [natReprAux]
    by_cases h : n < 10
    · simp [h]
    · have hd : n / 10 < n := Nat.div_lt_self (by omega) (by omega)
      simp only [h, if_false]
      rw [natReprAux_fuel f₁ f₂ (n / 10) (by omega) (by omega)]

/-- The recursion equation for `natRepr`. -/
theorem natRepr_eq (n : Nat) :
    natRepr n = if n < 10 then [digitChar n]
      else natRepr (n / 10) ++ [digitChar (n % 10)] := by
  show natReprAux (n + 1) n = _
  rw [natReprAux]
  by_cases h : n < 10
  · simp [h]
  · have hd : n / 10 < n := Nat.div_lt_self (by omega) (by omega)
    simp only [h, if_false]
    rw [natReprAux_fuel n (n / 10 + 1) (n / 10) (by omega) (by omega)]
    rfl

/-- Decimal rendering of an integer; mirrors Python's `repr` for `int`
(`json.dumps` uses it for integers). -/
def intRepr (i : Int) : List Char :=
  if i < 0 then '-' :: natRepr (-i).toNat else natRepr i.toNat

/-- Escaping of a single character inside a JSON string literal, following
`json.dumps` with `ensure_ascii=False`: it escapes `"` and backslash, uses
the short escapes for the control characters that have them, escapes the
remaining control characters as `\u00xx`, and leaves every other character
unchanged. -/
def escChar (c : Char) : List Char :=
  if c = '"' then ['\\', '"']
  else if c = '\\' then ['\\', '\\']
  else if c = '\n' then ['\\', 'n']
  else if c = '\t' then ['\\', 't']
  else if c = '\r' then ['\\', 'r']
  else if c = Char.ofNat 8 then ['\\', 'b']
  else if c = Char.ofNat 12 then ['\\', 'f']
  else if c.toNat < 32 then
    ['\\', 'u', '0', '0', hexChar (c.toNat / 16), hexChar (c.toNat % 16)]
  else [c]

/-- Escaping of a whole string body (without the surrounding quotes). -/
def escape : List Char → List Char
  | [] => []
  | c :: cs => escChar c ++ escape cs

/-- Encoding of a JSON string literal including the quotes. -/
def encStr (s : String) : List Char := '"' :: escape s.data ++ ['"']

mutual
/-- Canonical serialization of a value: `json.dumps` with separators
`(",", ":")`, `ensure_ascii=False`, and no key sorting (Python dict order
is preserved), as used by `canonical_json_bytes` in
`src/ops/sealed_workflow.py` and `js` in the encryption scripts. -/
def encV : JVal → List Char
  | .str s => encStr s
  | .num i => intRepr i
  | .bool true => ['t', 'r', 'u', 'e']
  | .bool false => ['f', 'a', 'l', 's', 'e']
  | .null => ['n', 'u', 'l', 'l']
  | .arr xs => '[' :: (encA xs ++ [']'])
  | .obj fs => lbrace :: (encO fs ++ [rbrace])

/-- Body of an array: elements separated by commas. -/
def encA : JArr → List Char
  | .nil => []
  | .cons v tl => encV v ++ encATail tl

def encATail : JArr → List Char
  | .nil => []
  | .cons v tl => ',' :: (encV v ++ encATail tl)

/-- Body of an object: `"key":value` pairs separated by commas. -/
def encO : JObj → List Char
  | .nil => []
  | .cons k v tl => encStr k ++ ':' :: (encV v ++ encOTail tl)

def encOTail : JObj → List Char
  | .nil => []
  | .cons k v tl => ',' :: (encStr k ++ ':' :: (encV v ++ encOTail tl))
end

/-- Canonical byte encoding of a top-level pack (a JSON object), the
argument handed to `hashlib.sha256` by `_compute_integrity` and to the
cipher by `_seal_payload`. -/
def encTop (p : JObj) : List Char := encV (.obj p)

/-! Association-style operations on `JObj`, mirroring Python dict
operations on packs.  Packs decoded from JSON have no duplicate keys, and
these functions agree with dict semantics on such objects. -/

/-- Python `pack.pop("integrity", None)` followed by using the dict:
removes the `integrity` entry. -/
def stripIntegrity : JObj → JObj
  | .nil => .nil
  | .cons k v tl =>
      if k = "integrity" then stripIntegrity tl
      else .cons k v (stripIntegrity tl)

/-- Python `d[k]` / `d.get(k)` lookup (first occurrence). -/
def lookupJ : JObj → String → Option JVal
  | .nil, _ => none
  | .cons k v tl, key => if k = key then some v else lookupJ tl key

/-- Python `d[k] = v` for a key that is absent: insertion at the end. -/
def appendField : JObj → String → JVal → JObj
  | .nil, k, v => .cons k v .nil
  | .cons k' v' tl, k, v => .cons k' v' (appendField tl k v)

/-- Python `d[k] = v` for a key that is present: replace the value in
place (applied to every occurrence; identical on duplicate-free objects). -/
def setField : JObj → String → JVal → JObj
  | .nil, _, _ => .nil
  | .cons k' v' tl, k, v =>
      if k' = k then .cons k' v (setField tl k v)
      else .cons k' v' (setField tl k v)

/-- The field names of an object, in order. -/
def keysJ : JObj → List String
  | .nil => []
  | .cons k _ tl => k :: keysJ tl

/-- `_compute_integrity` from `src/ops/sealed_workflow.py` (the same
stamping is inlined in `src/encrypt_full_pack.py`,
`src/encrypt_questions_pack.py` and `src/encrypt_maths_pack.py`): deep-copy
the pack, pop any `integrity` entry, hash the canonical encoding of the
rest, and store `integrity = {checksum, verified: true}` (inserted at the
end, since the key was just removed).  `sha256_hex` is the trusted hash,
passed as a parameter. -/
def compute_integrity (sha256_hex : List Char → String) (pack : JObj) : JObj :=
  let payload := stripIntegrity pack
  let checksum := sha256_hex (encTop payload)
  appendField payload "integrity"
    (.obj (.cons "checksum" (.str checksum) (.cons "verified" (.bool true) .nil)))

/-- The checksum comparison of `audit_pack` in `src/unseal_check.py`:
recompute the hash of the pack with `integrity` removed and compare it with
`integrity.checksum` (`data.get("integrity", {}).get("checksum")`); any
missing piece compares unequal. -/
def verify_pack (sha256_hex : List Char → String) (pack : JObj) : Bool :=
  let recomputed := sha256_hex (encTop (stripIntegrity pack))
  match lookupJ pack "integrity" with
  | some (.obj integ) =>
      match lookupJ integ "checksum" with
      | some (.str c) => recomputed == c
      | _ => false
  | _ => false

/-! Basic lemmas about the dict operations used by integrity stamping. -/

/-- Structural induction on `JObj` alone (no motive for the value type),
sufficient for facts about field-list manipulation. -/
@[induction_eliminator]
def JObj.inductionOn {motive : JObj → Prop} (nil : motive .nil)
    (cons : ∀ k v tl, motive tl → motive (.cons k v tl)) : ∀ p, motive p
  | .nil => nil
  | .cons k v tl => cons k v tl (JObj.inductionOn nil cons tl)

/-- Structural induction on `JArr` alone. -/
@[induction_eliminator]
def JArr.inductionOn {motive : JArr → Prop} (nil : motive .nil)
    (cons : ∀ v tl, motive tl → motive (.cons v tl)) : ∀ p, motive p
  | .nil => nil
  | .cons v tl => cons v tl (JArr.inductionOn nil cons tl)

theorem stripIntegrity_appendField (q : JObj) (v : JVal) :
    stripIntegrity (appendField q "integrity" v) = stripIntegrity q := by
  induction q with
  | nil => simp [appendField, stripIntegrity]
  | cons k v' tl ih =>
      by_cases hk : k = "integrity" <;> simp [appendField, stripIntegrity, hk, ih]

theorem lookupJ_stripIntegrity (p : JObj) :
    lookupJ (stripIntegrity p) "integrity" = none := by
  induction p with
  | nil => simp [stripIntegrity, lookupJ]
  | cons k v tl ih =>
      by_cases hk : k = "integrity" <;> simp [stripIntegrity, lookupJ, hk, ih]

theorem lookupJ_appendField_self (q : JObj) (k : String) (v : JVal)
    (h : lookupJ q k = none) : lookupJ (appendField q k v) k = some v := by
  induction q with
  | nil => simp [appendField, lookupJ]
  | cons k' v' tl ih =>
      by_cases hk : k' = k
      · simp [lookupJ, hk] at h
      · simp [lookupJ, hk] at h
        simp [appendField, lookupJ, hk, ih h]

theorem keysJ_appendField (q : JObj) (k : String) (v : JVal) :
    keysJ (appendField q k v) = keysJ q ++ [k] := by
  induction q with
  | nil => simp [appendField, keysJ]
  | cons k' v' tl ih => simp [appendField, keysJ, ih]

theorem integrity_not_mem_keysJ_stripIntegrity (p : JObj) :
    "integrity" ∉ keysJ (stripIntegrity p) := by
  induction p with
  | nil => simp [stripIntegrity, keysJ]
  | cons k v tl ih =>
      by_cases hk : k = "integrity" <;> simp [stripIntegrity, keysJ, hk, ih]
      exact fun h => hk h.symm

/-- C1: `_compute_integrity` removes any existing `integrity` field, appends
`integrity = {checksum, verified: true}` as the last field, and the stored
checksum is the hash of the canonical encoding of the stamped pack with its
`integrity` field removed (for any choice of the trusted SHA-256
function). -/
theorem C1_stamp_integrity (sha256_hex : List Char → String) (pack : JObj) :
    keysJ (compute_integrity sha256_hex pack)
        = keysJ (stripIntegrity pack) ++ ["integrity"]
    ∧ "integrity" ∉ keysJ (stripIntegrity pack)
    ∧ stripIntegrity (compute_integrity sha256_hex pack) = stripIntegrity pack
    ∧ lookupJ (compute_integrity sha256_hex pack) "integrity"
        = some (.obj (.cons "checksum"
            (.str (sha256_hex
              (encTop (stripIntegrity (compute_integrity sha256_hex pack)))))
            (.cons "verified" (.bool true) .nil))) := by
  refine ⟨keysJ_appendField _ _ _, integrity_not_mem_keysJ_stripIntegrity pack, ?_, ?_⟩
  · unfold compute_integrity
    rw [stripIntegrity_appendField]
    induction pack with
    | nil => simp [stripIntegrity]
    | cons k v tl ih =>
        by_cases hk : k = "integrity" <;> simp [stripIntegrity, hk, ih]
  · unfold compute_integrity
    rw [stripIntegrity_appendField]
    have hstrip : stripIntegrity (stripIntegrity pack) = stripIntegrity pack := by
      induction pack with
      | nil => simp [stripIntegrity]
      | cons k v tl ih =>
          by_cases hk : k = "integrity" <;> simp [stripIntegrity, hk, ih]
    rw [hstrip]
    exact lookupJ_appendField_self _ _ _ (lookupJ_stripIntegrity pack)

/-! Version handling of the two standalone encryptors
(`src/encrypt_maths_pack.py` main, `src/encrypt_questions_pack.py`
`normalize_pack` / `validate_final`).  A JSON string field that is absent
is `none`; Python truthiness makes the empty string fall back to the
default as well. -/

def MATHS_ALLOWED_VERSIONS : List String := ["jemima-maths-chain-2"]

def MATHS_DEFAULT_VERSION : String := "jemima-maths-chain-2"

/-- `ver = pack.get("version") or DEFAULT_VERSION; must(ver in
ALLOWED_VERSIONS, ...)` from `src/encrypt_maths_pack.py` lines 188-190. -/
def maths_version_check (v : Option String) : Except String String :=
  let ver := match v with
    | none => MATHS_DEFAULT_VERSION
    | some s => if s = "" then MATHS_DEFAULT_VERSION else s
  if ver ∈ MATHS_ALLOWED_VERSIONS then .ok ver
  else .error ("Unsupported version: " ++ ver)

/-- Python `str.startswith`, expressed on the character sequences of the
two strings. -/
def strStartsWith (s pre : String) : Bool := pre.data.isPrefixOf s.data

/-- The version step of `normalize_pack` in
`src/encrypt_questions_pack.py` lines 211-213: a missing version or one
not starting with `jemima-questions-` is replaced by the default,
anything with the prefix is kept. -/
def questions_normalize_version (v : Option String) : String :=
  match v with
  | some s => if strStartsWith s "jemima-questions-" then s else "jemima-questions-1"
  | none => "jemima-questions-1"

/-- The version check of `validate_final` in
`src/encrypt_questions_pack.py` line 238. -/
def questions_validate_final_version (ver : String) : Except String Unit :=
  if ver = "jemima-questions-1" then .ok ()
  else .error "Questions: version must be jemima-questions-1"

/-- C7 counterexample: a maths pack with a missing `version` is not
hard-rejected — `pack.get("version") or DEFAULT_VERSION` silently defaults
it and validation passes; moreover a questions pack with the unknown
version `jemima-questions-2` is kept by normalization and then
hard-rejected by final validation instead of being defaulted. -/
theorem C7_counterexample :
    maths_version_check none = .ok "jemima-maths-chain-2"
    ∧ questions_normalize_version (some "jemima-questions-2") = "jemima-questions-2"
    ∧ questions_validate_final_version
        (questions_normalize_version (some "jemima-questions-2"))
        = .error "Questions: version must be jemima-questions-1" := by
  exact ⟨rfl, by decide, rfl⟩

/-- C7 (amended): a maths pack version that is present and non-empty but
not the accepted value is hard-rejected, while a missing or empty version
silently defaults to `jemima-maths-chain-2` and passes; a questions pack
version that is missing or lacks the `jemima-questions-` prefix defaults
to `jemima-questions-1` and passes final validation, while a version
carrying the prefix is kept by normalization and passes final validation
exactly when it equals `jemima-questions-1`. -/
theorem C7_version_policy (s t u : String) :
    maths_version_check none = .ok "jemima-maths-chain-2"
    ∧ maths_version_check (some "") = .ok "jemima-maths-chain-2"
    ∧ maths_version_check (some "jemima-maths-chain-2") = .ok "jemima-maths-chain-2"
    ∧ (s ≠ "" → s ∉ MATHS_ALLOWED_VERSIONS →
        maths_version_check (some s) = .error ("Unsupported version: " ++ s))
    ∧ questions_normalize_version none = "jemima-questions-1"
    ∧ (strStartsWith t "jemima-questions-" = false →
        questions_normalize_version (some t) = "jemima-questions-1")
    ∧ questions_validate_final_version
        (questions_normalize_version none) = .ok ()
    ∧ (strStartsWith u "jemima-questions-" = true →
        questions_normalize_version (some u) = u)
    ∧ (strStartsWith u "jemima-questions-" = true → u ≠ "jemima-questions-1" →
        questions_validate_final_version (questions_normalize_version (some u))
          = .error "Questions: version must be jemima-questions-1") := by
  refine ⟨rfl, rfl, rfl, ?_, rfl, ?_, rfl, ?_, ?_⟩
  · intro hs hmem
    simp only [maths_version_check, hs, if_false]
    simp [hmem]
  · intro ht
    simp [questions_normalize_version, ht]
  · intro hu
    simp [questions_normalize_version, hu]
  · intro hu hne
    simp [questions_normalize_version, hu, questions_validate_final_version, hne]

/-- C7 witness: the policy evaluated at the concrete versions `bogus`,
`legacy` and `jemima-questions-2`. -/
theorem C7_version_policy_witness :
    maths_version_check (some "bogus") = .error ("Unsupported version: " ++ "bogus")
    ∧ questions_normalize_version (some "legacy") = "jemima-questions-1"
    ∧ questions_validate_final_version
        (questions_normalize_version (some "jemima-questions-2"))
        = .error "Questions: version must be jemima-questions-1" := by
  have h := C7_version_policy "bogus" "legacy" "jemima-questions-2"
  exact ⟨h.2.2.2.1 (by decide) (by decide),
         h.2.2.2.2.2.1 (by decide),
         h.2.2.2.2.2.2.2.2 (by decide) (by decide)⟩

/-! Legacy question-item conversion
(`convert_item_if_needed` in `src/encrypt_questions_pack.py`). -/

/-- A question item as a record of the dict fields the function reads;
an absent dict key is `none`.  `distractors` is the (ordered) dict of
distractor strings. -/
structure QItemDict where
  prompt : Option String := none
  options : Option (List String) := none
  correct : Option String := none
  question : Option String := none
  correct_answer : Option String := none
  distractors : List (String × String) := []
  deriving DecidableEq

/-- Python `str.strip()` on the character sequence: leading and trailing
whitespace removed. -/
def pyStrip (s : String) : List Char :=
  ((s.data.dropWhile Char.isWhitespace).reverse.dropWhile Char.isWhitespace).reverse

/-- Python `d.get(k)` on the distractors dict. -/
def dictGet (ds : List (String × String)) (k : String) : Option String :=
  (ds.find? (fun kv => kv.1 = k)).map (·.2)

/-- Python `x or y` on optional strings: the left operand wins unless it
is falsy (`None` or the empty string). -/
def pyOr (a b : Option String) : Option String :=
  match a with
  | some s => if s = "" then b else some s
  | none => b

/-- The distractor selection of `convert_item_if_needed`: prefer
`medium`, then `easy`, then `hard`; if that chain is falsy, fall back to
the first distractor value in dict order, failing when there is none. -/
def chosen_distractor (ds : List (String × String)) : Except String String :=
  let b0 := pyOr (dictGet ds "medium") (pyOr (dictGet ds "easy") (dictGet ds "hard"))
  match b0 with
  | some s =>
      if s = "" then
        match ds with
        | [] => .error "Legacy item has no usable distractor"
        | (_, v) :: _ => .ok v
      else .ok s
  | none =>
      match ds with
      | [] => .error "Legacy item has no usable distractor"
      | (_, v) :: _ => .ok v

/-- `convert_item_if_needed` from `src/encrypt_questions_pack.py`: an item
that already has `prompt`, `options` and `correct` is lightly checked and
returned unchanged; otherwise the legacy shape
`{question, correct_answer, distractors}` is converted to
`{prompt, options = [correct_answer, distractor], correct = "A"}`. -/
def convert_item_if_needed (it : QItemDict) : Except String QItemDict :=
  match it.prompt, it.options, it.correct with
  | some p, some os, some c =>
      if pyStrip p = [] then .error "Item prompt missing/empty"
      else if os.length ≠ 2 then .error "Item needs exactly 2 options"
      else if c ≠ "A" ∧ c ≠ "B" then .error "Item correct must be A or B"
      else .ok it
  | _, _, _ =>
      match it.question, it.correct_answer with
      | some q, some ca =>
          if pyStrip q = [] then .error "Legacy item missing question"
          else if pyStrip ca = [] then .error "Legacy item missing correct_answer"
          else
            match chosen_distractor it.distractors with
            | .error e => .error e
            | .ok b =>
                if pyStrip b = [] then .error "Chosen distractor invalid"
                else .ok { prompt := some q, options := some [ca, b],
                           correct := some "A" }
      | _, _ => .error "Legacy item missing question"

/-- C8: a legacy item `{question, correct_answer, distractors}` converts
to `{prompt = question, options = [correct_answer, d], correct = "A"}`,
where `d` is selected by `chosen_distractor` (priority `medium`, `easy`,
`hard`, else the first provided distractor). -/
theorem C8_legacy_conversion (q ca b : String) (ds : List (String × String))
    (hq : pyStrip q ≠ []) (hca : pyStrip ca ≠ [])
    (hb : chosen_distractor ds = .ok b) (hbne : pyStrip b ≠ []) :
    convert_item_if_needed { question := some q, correct_answer := some ca,
                             distractors := ds }
      = .ok { prompt := some q, options := some [ca, b],
              correct := some "A" } := by
  simp [convert_item_if_needed, hq, hca, hb, hbne]

/-- C8 witness: Scenario B — `{question: "2+2?", correct_answer: "4",
distractors: {medium: "5"}}` normalizes to
`{prompt: "2+2?", options: ["4", "5"], correct: "A"}`. -/
theorem C8_legacy_conversion_witness :
    convert_item_if_needed { question := some "2+2?", correct_answer := some "4",
                             distractors := [("medium", "5")] }
      = .ok { prompt := some "2+2?", options := some ["4", "5"],
              correct := some "A" } :=
  C8_legacy_conversion "2+2?" "4" "5" [("medium", "5")]
    (by decide) (by decide) rfl (by decide)

/-! The envelope decryption guards of `src/ops/sealed_workflow.py`
(`aes_gcm_decrypt`, `_decrypt_envelope`) and the corresponding path of
`src/unseal_check.py` (`main` + `AesGcmCipher.decrypt`).  Bytes are `Nat`
lists; the AES-GCM tag comparison performed inside OpenSSL is a trusted
primitive, passed as an oracle `gcm key nonce ct tag` returning the
plaintext on tag success and `none` on tag mismatch. -/

/-- `aes_gcm_decrypt` from `src/ops/sealed_workflow.py`: inputs shorter
than the 16-byte tag are rejected up front; otherwise the trailing 16
bytes are split off as the tag and the cipher is consulted, a tag mismatch
surfacing as the authentication error. -/
def aes_gcm_decrypt
    (gcm : List Nat → List Nat → List Nat → List Nat → Option (List Nat))
    (key nonce ctWithTag : List Nat) : Except String (List Nat) :=
  if ctWithTag.length < 16 then .error "Ciphertext too short for AES-GCM."
  else
    let ct := ctWithTag.take (ctWithTag.length - 16)
    let tag := ctWithTag.drop (ctWithTag.length - 16)
    match gcm key nonce ct tag with
    | some pt => .ok pt
    | none => .error "AES-GCM authentication failed."

/-- The decryption path of `main` in `src/unseal_check.py`: the ciphertext
is split as `ct[:-16]` / `ct[-16:]` with no length check (Python slicing
clamps, exactly like truncated `take`/`drop` on `Nat`), and the cipher is
invoked directly; a tag mismatch raises the `EVP_DecryptFinal_ex` error. -/
def unseal_check_decrypt
    (gcm : List Nat → List Nat → List Nat → List Nat → Option (List Nat))
    (key nonce ct : List Nat) : Except String (List Nat) :=
  let ciphertext := ct.take (ct.length - 16)
  let tag := ct.drop (ct.length - 16)
  match gcm key nonce ciphertext tag with
  | some pt => .ok pt
  | none => .error "EVP_DecryptFinal_ex verification failed"

/-- `_decrypt_envelope` from `src/ops/sealed_workflow.py`: the decoded
salt, nonce and ciphertext are structurally checked before the key
derivation (`derive`) or cipher (`gcm`) is invoked. -/
def decrypt_envelope
    (derive : List Nat → List Nat)
    (gcm : List Nat → List Nat → List Nat → List Nat → Option (List Nat))
    (salt nonce ciphertext : List Nat) : Except String (List Nat) :=
  if salt.length < 16 ∨ nonce.length ≠ 12 ∨ ciphertext.length = 0 then
    .error "Invalid sealed envelope."
  else aes_gcm_decrypt gcm (derive salt) nonce ciphertext

/-- C3 counterexample: in `src/unseal_check.py` an envelope whose decoded
ciphertext is only 8 bytes is NOT rejected with a format error — the
split `ct[:-16]` / `ct[-16:]` silently yields an empty ciphertext and an
8-byte tag, the cipher is consulted, and the failure surfaced is the
authentication-style `EVP_DecryptFinal_ex` error, which is distinct from
the short-ciphertext format error of the sealed workflow. -/
theorem C3_counterexample :
    unseal_check_decrypt (fun _ _ _ _ => none) [] [] [0, 1, 2, 3, 4, 5, 6, 7]
      = .error "EVP_DecryptFinal_ex verification failed"
    ∧ ("EVP_DecryptFinal_ex verification failed" : String)
      ≠ "Ciphertext too short for AES-GCM." := by
  exact ⟨rfl, by decide⟩

/-- C3 (amended): in the sealed workflow's `aes_gcm_decrypt`, an input
shorter than 16 bytes is rejected with the format error before the cipher
is ever consulted (the result does not depend on the cipher oracle), and
that error is distinct from the authentication error raised on an actual
tag mismatch; `src/unseal_check.py` performs no such length check and
surfaces a tag-mismatch failure instead. -/
theorem C3_short_ciphertext_format_error
    (gcm gcm' : List Nat → List Nat → List Nat → List Nat → Option (List Nat))
    (key nonce ctWithTag key₂ nonce₂ ct₂ : List Nat)
    (hshort : ctWithTag.length < 16) (hlong : 16 ≤ ct₂.length)
    (hmiss : gcm key₂ nonce₂ (ct₂.take (ct₂.length - 16))
        (ct₂.drop (ct₂.length - 16)) = none) :
    aes_gcm_decrypt gcm key nonce ctWithTag
      = .error "Ciphertext too short for AES-GCM."
    ∧ aes_gcm_decrypt gcm key nonce ctWithTag
      = aes_gcm_decrypt gcm' key nonce ctWithTag
    ∧ aes_gcm_decrypt gcm key₂ nonce₂ ct₂
      = .error "AES-GCM authentication failed."
    ∧ ("Ciphertext too short for AES-GCM." : String)
      ≠ "AES-GCM authentication failed." := by
  refine ⟨by simp [aes_gcm_decrypt, hshort], by simp [aes_gcm_decrypt, hshort], ?_, by decide⟩
  have hnot : ¬ ct₂.length < 16 := by omega
  simp [aes_gcm_decrypt, hnot, hmiss]

/-- C3 witness: the amended statement at a 3-byte input and a 16-byte
input under an always-rejecting tag oracle. -/
theorem C3_short_ciphertext_format_error_witness :
    aes_gcm_decrypt (fun _ _ _ _ => none) [] [] [9, 9, 9]
      = .error "Ciphertext too short for AES-GCM."
    ∧ aes_gcm_decrypt (fun _ _ _ _ => none) [] []
        [0, 1, 2, 3, 4, 5, 6, 7, 8, 9, 10, 11, 12, 13, 14, 15]
      = .error "AES-GCM authentication failed." := by
  have h := C3_short_ciphertext_format_error (fun _ _ _ _ => none)
    (fun _ _ _ _ => some []) [] [] [9, 9, 9] [] []
    [0, 1, 2, 3, 4, 5, 6, 7, 8, 9, 10, 11, 12, 13, 14, 15]
    (by decide) (by decide) (by decide)
  exact ⟨h.1, h.2.2.1⟩

/-- C10: `_decrypt_envelope` checks the decoded salt, nonce and ciphertext
before any cryptographic work — a salt shorter than 16 bytes, a nonce that
is not exactly 12 bytes, or an empty ciphertext yields the envelope format
error regardless of the key-derivation and cipher oracles (so neither is
invoked), while structurally valid inputs — including salts longer than 16
bytes — proceed to key derivation and the cipher. -/
theorem C10_envelope_structural_checks
    (derive derive' : List Nat → List Nat)
    (gcm gcm' : List Nat → List Nat → List Nat → List Nat → Option (List Nat))
    (salt nonce ciphertext : List Nat) :
    (salt.length < 16 ∨ nonce.length ≠ 12 ∨ ciphertext.length = 0 →
      decrypt_envelope derive gcm salt nonce ciphertext
        = .error "Invalid sealed envelope."
      ∧ decrypt_envelope derive gcm salt nonce ciphertext
        = decrypt_envelope derive' gcm' salt nonce ciphertext)
    ∧ (16 ≤ salt.length → nonce.length = 12 → ciphertext ≠ [] →
      decrypt_envelope derive gcm salt nonce ciphertext
        = aes_gcm_decrypt gcm (derive salt) nonce ciphertext) := by
  constructor
  · intro hbad
    have h₁ : decrypt_envelope derive gcm salt nonce ciphertext
        = .error "Invalid sealed envelope." := by
      unfold decrypt_envelope
      rw [if_pos hbad]
    have h₂ : decrypt_envelope derive' gcm' salt nonce ciphertext
        = .error "Invalid sealed envelope." := by
      unfold decrypt_envelope
      rw [if_pos hbad]
    exact ⟨h₁, h₁.trans h₂.symm⟩
  · intro hsalt hnonce hct
    have hgood : ¬ (salt.length < 16 ∨ nonce.length ≠ 12 ∨ ciphertext.length = 0) := by
      rintro (h | h | h)
      · omega
      · exact h hnonce
      · exact hct (List.length_eq_zero.mp h)
    unfold decrypt_envelope
    rw [if_neg hgood]

/-- C10 witness: a 3-byte salt is rejected without consulting the oracles,
and a 17-byte salt with a 12-byte nonce and 1-byte ciphertext reaches the
cipher. -/
theorem C10_envelope_structural_checks_witness :
    decrypt_envelope (fun _ => []) (fun _ _ _ _ => none) [1, 2, 3]
        [0, 0, 0, 0, 0, 0, 0, 0, 0, 0, 0, 0] [7]
      = .error "Invalid sealed envelope."
    ∧ decrypt_envelope (fun _ => []) (fun _ _ _ _ => none)
        [0, 1, 2, 3, 4, 5, 6, 7, 8, 9, 10, 11, 12, 13, 14, 15, 16]
        [0, 0, 0, 0, 0, 0, 0, 0, 0, 0, 0, 0] [7]
      = aes_gcm_decrypt (fun _ _ _ _ => none) ((fun _ => ([] : List Nat))
          [0, 1, 2, 3, 4, 5, 6, 7, 8, 9, 10, 11, 12, 13, 14, 15, 16])
        [0, 0, 0, 0, 0, 0, 0, 0, 0, 0, 0, 0] [7] := by
  have h₁ := C10_envelope_structural_checks (fun _ => []) (fun _ => [])
    (fun _ _ _ _ => none) (fun _ _ _ _ => none) [1, 2, 3]
    [0, 0, 0, 0, 0, 0, 0, 0, 0, 0, 0, 0] [7]
  have h₂ := C10_envelope_structural_checks (fun _ => []) (fun _ => [])
    (fun _ _ _ _ => none) (fun _ _ _ _ => none)
    [0, 1, 2, 3, 4, 5, 6, 7, 8, 9, 10, 11, 12, 13, 14, 15, 16]
    [0, 0, 0, 0, 0, 0, 0, 0, 0, 0, 0, 0] [7]
  exact ⟨(h₁.1 (by decide)).1, h₂.2 (by decide) (by decide) (by decide)⟩

/-! Base64 and the sealed-envelope shape (C4).  `base64Encode` is standard
RFC 4648 base64 with `=` padding, as produced by Python's
`base64.b64encode`; `base64Decode` is its inverse on well-formed input. -/

/-- The base64 alphabet character for a 6-bit value. -/
def b64Char (n : Nat) : Char :=
  if n < 26 then Char.ofNat (65 + n)
  else if n < 52 then Char.ofNat (97 + (n - 26))
  else if n < 62 then Char.ofNat (48 + (n - 52))
  else if n = 62 then '+' else '/'

/-- Base64 encoding of a byte list, three bytes per four characters, with
`=` padding on a trailing group of one or two bytes. -/
def base64Chunks : List Nat → List Char
  | [] => []
  | [a] => [b64Char (a / 4), b64Char ((a % 4) * 16), '=', '=']
  | [a, b] => [b64Char (a / 4), b64Char ((a % 4) * 16 + b / 16),
               b64Char ((b % 16) * 4), '=']
  | a :: b :: c :: rest =>
      b64Char (a / 4) :: b64Char ((a % 4) * 16 + b / 16) ::
      b64Char ((b % 16) * 4 + c / 64) :: b64Char (c % 64) :: base64Chunks rest

/-- Python `base64.b64encode(...).decode()`. -/
def base64Encode (bs : List Nat) : String := String.mk (base64Chunks bs)

/-- The 6-bit value of a base64 alphabet character. -/
def b64Val (c : Char) : Nat :=
  if 65 ≤ c.toNat ∧ c.toNat ≤ 90 then c.toNat - 65
  else if 97 ≤ c.toNat ∧ c.toNat ≤ 122 then c.toNat - 97 + 26
  else if 48 ≤ c.toNat ∧ c.toNat ≤ 57 then c.toNat - 48 + 52
  else if c = '+' then 62 else 63

/-- Reassembly of bytes from 6-bit values (padding already stripped). -/
def base64DecodeCore : List Nat → List Nat
  | v1 :: v2 :: v3 :: v4 :: rest =>
      (v1 * 4 + v2 / 16) :: ((v2 % 16) * 16 + v3 / 4) ::
      ((v3 % 4) * 64 + v4) :: base64DecodeCore rest
  | [v1, v2] => [v1 * 4 + v2 / 16]
  | [v1, v2, v3] => [v1 * 4 + v2 / 16, (v2 % 16) * 16 + v3 / 4]
  | _ => []

/-- Python `base64.b64decode`: strip padding, map characters to 6-bit
values, reassemble bytes. -/
def base64Decode (s : String) : List Nat :=
  base64DecodeCore ((s.data.filter (fun c => c ≠ '=')).map b64Val)

theorem b64Val_b64Char : ∀ n, n < 64 → b64Val (b64Char n) = n := by decide

theorem b64Char_ne_pad : ∀ n, n < 64 → b64Char n ≠ '=' := by decide

/-- Base64 round trip on byte lists. -/
theorem base64_roundtrip : ∀ bs : List Nat, (∀ b ∈ bs, b < 256) →
    base64Decode (base64Encode bs) = bs
  | [], _ => rfl
  | [a], h => by
      have ha : a < 256 := h a (by simp)
      have h1 : a / 4 < 64 := by omega
      have h2 : (a % 4) * 16 < 64 := by omega
      show base64DecodeCore (((base64Chunks [a]).filter (fun c => c ≠ '=')).map b64Val) = [a]
      rw [show base64Chunks [a] = [b64Char (a / 4), b64Char ((a % 4) * 16), '=', '='] from rfl]
      rw [show ([b64Char (a / 4), b64Char ((a % 4) * 16), '=', '=']).filter (fun c => c ≠ '=')
          = [b64Char (a / 4), b64Char ((a % 4) * 16)] by
        simp [List.filter, b64Char_ne_pad _ h1, b64Char_ne_pad _ h2]]
      simp only [List.map_cons, List.map_nil, base64DecodeCore,
        b64Val_b64Char _ h1, b64Val_b64Char _ h2]
      congr 1
      omega
  | [a, b], h => by
      have ha : a < 256 := h a (by simp)
      have hb : b < 256 := h b (by simp)
      have h1 : a / 4 < 64 := by omega
      have h2 : (a % 4) * 16 + b / 16 < 64 := by omega
      have h3 : (b % 16) * 4 < 64 := by omega
      show base64DecodeCore (((base64Chunks [a, b]).filter (fun c => c ≠ '=')).map b64Val) = [a, b]
      rw [show base64Chunks [a, b] = [b64Char (a / 4), b64Char ((a % 4) * 16 + b / 16),
            b64Char ((b % 16) * 4), '='] from rfl]
      rw [show ([b64Char (a / 4), b64Char ((a % 4) * 16 + b / 16),
            b64Char ((b % 16) * 4), '=']).filter (fun c => c ≠ '=')
          = [b64Char (a / 4), b64Char ((a % 4) * 16 + b / 16), b64Char ((b % 16) * 4)] by
        simp [List.filter, b64Char_ne_pad _ h1, b64Char_ne_pad _ h2, b64Char_ne_pad _ h3]]
      simp only [List.map_cons, List.map_nil, base64DecodeCore,
        b64Val_b64Char _ h1, b64Val_b64Char _ h2, b64Val_b64Char _ h3]
      congr 1
      · omega
      · congr 1
        omega
  | a :: b :: c :: rest, h => by
      have ha : a < 256 := h a (by simp)
      have hb : b < 256 := h b (by simp)
      have hc : c < 256 := h c (by simp)
      have h1 : a / 4 < 64 := by omega
      have h2 : (a % 4) * 16 + b / 16 < 64 := by omega
      have h3 : (b % 16) * 4 + c / 64 < 64 := by omega
      have h4 : c % 64 < 64 := by omega
      have ih := base64_roundtrip rest (fun x hx => h x (by simp [hx]))
      show base64DecodeCore (((base64Chunks (a :: b :: c :: rest)).filter
          (fun ch => ch ≠ '=')).map b64Val) = a :: b :: c :: rest
      rw [show base64Chunks (a :: b :: c :: rest)
          = b64Char (a / 4) :: b64Char ((a % 4) * 16 + b / 16) ::
            b64Char ((b % 16) * 4 + c / 64) :: b64Char (c % 64) ::
            base64Chunks rest from rfl]
      rw [List.filter_cons_of_pos (by simpa using b64Char_ne_pad _ h1),
          List.filter_cons_of_pos (by simpa using b64Char_ne_pad _ h2),
          List.filter_cons_of_pos (by simpa using b64Char_ne_pad _ h3),
          List.filter_cons_of_pos (by simpa using b64Char_ne_pad _ h4)]
      simp only [List.map_cons, base64DecodeCore,
        b64Val_b64Char _ h1, b64Val_b64Char _ h2, b64Val_b64Char _ h3,
        b64Val_b64Char _ h4]
      have htail : base64DecodeCore (((base64Chunks rest).filter
          (fun ch => ch ≠ '=')).map b64Val) = rest := ih
      rw [htail]
      congr 1
      · omega
      · congr 1
        · omega
        · congr 1
          omega

/-- The envelope written by `src/encrypt_full_pack.py` (and, with the same
five fields, by `seal` in `src/encrypt_questions_pack.py` and by `main` in
`src/encrypt_maths_pack.py`): `ct` is ciphertext with the GCM tag
appended. -/
def full_pack_envelope (salt nonce ciphertext tag : List Nat) : JObj :=
  .cons "alg" (.str "AES-GCM")
    (.cons "pbkdf2" (.str "PBKDF2-HMAC-SHA256/150000")
      (.cons "salt_b64" (.str (base64Encode salt))
        (.cons "nonce_b64" (.str (base64Encode nonce))
          (.cons "ct_b64" (.str (base64Encode (ciphertext ++ tag))) .nil))))

/-- `payload.get("meta", {}).get("roomCode", "SEA")` for a string-valued
room code. -/
def originalOf (payload : JObj) : String :=
  match lookupJ payload "meta" with
  | some (.obj m) =>
      match lookupJ m "roomCode" with
      | some (.str s) => s
      | _ => "SEA"
  | _ => "SEA"

/-- The envelope built by `_seal_payload` in `src/ops/sealed_workflow.py`:
a six-field legacy shape with a different `alg` tag, a numeric
`pbkdf2_iterations` field and an `original` field, and no `pbkdf2`
field. -/
def seal_payload_envelope (payload : JObj) (salt nonce ciphertext : List Nat) : JObj :=
  .cons "alg" (.str "aes-256-gcm+pbkdf2-sha256")
    (.cons "salt_b64" (.str (base64Encode salt))
      (.cons "nonce_b64" (.str (base64Encode nonce))
        (.cons "ct_b64" (.str (base64Encode ciphertext))
          (.cons "pbkdf2_iterations" (.num 150000)
            (.cons "original" (.str (originalOf payload)) .nil)))))

/-- C4 counterexample: the sealed workflow's `_seal_payload` — one of the
two implementations the claim covers — does not emit the claimed envelope:
its `alg` is `aes-256-gcm+pbkdf2-sha256` rather than `AES-GCM`, it has no
`pbkdf2` field, and it carries the extra fields `pbkdf2_iterations` and
`original`. -/
theorem C4_counterexample :
    keysJ (seal_payload_envelope .nil [] [] [])
      = ["alg", "salt_b64", "nonce_b64", "ct_b64", "pbkdf2_iterations", "original"]
    ∧ lookupJ (seal_payload_envelope .nil [] [] []) "alg"
      = some (.str "aes-256-gcm+pbkdf2-sha256")
    ∧ "pbkdf2" ∉ keysJ (seal_payload_envelope .nil [] [] [])
    ∧ ("aes-256-gcm+pbkdf2-sha256" : String) ≠ "AES-GCM" := by
  exact ⟨rfl, rfl, by decide, by decide⟩

/-- C4 (amended): the standalone encryptors (`encrypt_full_pack.py`,
`encrypt_questions_pack.py`, `encrypt_maths_pack.py`) emit an envelope
whose fields are exactly `alg = "AES-GCM"`,
`pbkdf2 = "PBKDF2-HMAC-SHA256/150000"`, `salt_b64`, `nonce_b64` and
`ct_b64 = base64(ciphertext ‖ tag)`, with no other fields, and the base64
fields decode back to the salt, the nonce and ciphertext‖tag; the ops
workflow's `_seal_payload` instead emits the six-field legacy shape shown
in the counterexample. -/
theorem C4_envelope_shape (salt nonce ciphertext tag : List Nat)
    (hs : ∀ x ∈ salt, x < 256) (hn : ∀ x ∈ nonce, x < 256)
    (hct : ∀ x ∈ ciphertext ++ tag, x < 256) :
    keysJ (full_pack_envelope salt nonce ciphertext tag)
      = ["alg", "pbkdf2", "salt_b64", "nonce_b64", "ct_b64"]
    ∧ lookupJ (full_pack_envelope salt nonce ciphertext tag) "alg"
      = some (.str "AES-GCM")
    ∧ lookupJ (full_pack_envelope salt nonce ciphertext tag) "pbkdf2"
      = some (.str "PBKDF2-HMAC-SHA256/150000")
    ∧ lookupJ (full_pack_envelope salt nonce ciphertext tag) "salt_b64"
      = some (.str (base64Encode salt))
    ∧ lookupJ (full_pack_envelope salt nonce ciphertext tag) "nonce_b64"
      = some (.str (base64Encode nonce))
    ∧ lookupJ (full_pack_envelope salt nonce ciphertext tag) "ct_b64"
      = some (.str (base64Encode (ciphertext ++ tag)))
    ∧ base64Decode (base64Encode salt) = salt
    ∧ base64Decode (base64Encode nonce) = nonce
    ∧ base64Decode (base64Encode (ciphertext ++ tag)) = ciphertext ++ tag := by
  refine ⟨rfl, rfl, rfl, rfl, rfl, rfl, ?_, ?_, ?_⟩
  · exact base64_roundtrip salt hs
  · exact base64_roundtrip nonce hn
  · exact base64_roundtrip (ciphertext ++ tag) hct

/-- C4 witness: the envelope shape at a concrete 16-byte salt, 12-byte
nonce, 2-byte ciphertext and 16-byte tag. -/
theorem C4_envelope_shape_witness :
    keysJ (full_pack_envelope
        [0, 1, 2, 3, 4, 5, 6, 7, 8, 9, 10, 11, 12, 13, 14, 15]
        [20, 21, 22, 23, 24, 25, 26, 27, 28, 29, 30, 31] [100, 200]
        [255, 254, 253, 252, 251, 250, 249, 248, 247, 246, 245, 244, 243, 242, 241, 240])
      = ["alg", "pbkdf2", "salt_b64", "nonce_b64", "ct_b64"]
    ∧ base64Decode (base64Encode ([100, 200] ++
        [255, 254, 253, 252, 251, 250, 249, 248, 247, 246, 245, 244, 243, 242, 241, 240]))
      = [100, 200] ++
        [255, 254, 253, 252, 251, 250, 249, 248, 247, 246, 245, 244, 243, 242, 241, 240] := by
  have h := C4_envelope_shape
    [0, 1, 2, 3, 4, 5, 6, 7, 8, 9, 10, 11, 12, 13, 14, 15]
    [20, 21, 22, 23, 24, 25, 26, 27, 28, 29, 30, 31] [100, 200]
    [255, 254, 253, 252, 251, 250, 249, 248, 247, 246, 245, 244, 243, 242, 241, 240]
    (by decide) (by decide) (by decide)
  exact ⟨h.1, h.2.2.2.2.2.2.2.2⟩

/-! The all-or-nothing file move of `_move_files` in
`src/ops/sealed_workflow.py` (C6).  The filesystem is a finite map from
paths to byte contents; each primitive operation of the copy loop
(`read_bytes`+`write_bytes`, counted as one copy step, and `unlink`) may
raise, driven by a failure oracle over an operation clock, in which case it
leaves the filesystem unchanged; the `except` handler walks the completed
transfers in reverse and performs `dest.replace(src)` for every destination
that still exists, then re-raises (the error result carries the
filesystem after rollback). -/

/-- A filesystem: association list from path to contents. -/
def FS := List (String × List Nat)

instance : DecidableEq FS := by
  unfold FS
  infer_instance

/-- Contents at a path, if the file exists. -/
def fsRead (fs : FS) (p : String) : Option (List Nat) :=
  (fs.find? (fun e => e.1 = p)).map (fun e => e.2)

/-- `unlink` / removal of a path. -/
def fsRemove (fs : FS) (p : String) : FS := fs.filter (fun e => e.1 ≠ p)

/-- `write_bytes`: create or overwrite. -/
def fsWrite (fs : FS) (p : String) (b : List Nat) : FS := (p, b) :: fsRemove fs p

/-- `Path.exists()`. -/
def fsExists (fs : FS) (p : String) : Bool := (fsRead fs p).isSome

/-- `dest.replace(src)` guarded by `dest.exists()`, as in the rollback
handler: move the destination file back over the source. -/
def rollbackStep (fs : FS) (t : String × String) : FS :=
  match fsRead fs t.2 with
  | some b => fsWrite (fsRemove fs t.2) t.1 b
  | none => fs

/-- Iterated rollback over a list of transfers (in the given order). -/
def rollbackList (l : List (String × String)) (fs : FS) : FS :=
  l.foldl rollbackStep fs

/-- `for src, dest in reversed(completed): ...` -/
def rollbackAll (completed : List (String × String)) (fs : FS) : FS :=
  rollbackList completed.reverse fs

/-- The transfer loop of `_move_files`: skip when the destination already
exists or the source is gone; otherwise copy, record the transfer as
completed, and unlink the source.  `fail clock` injects an exception at
the given primitive operation; on any exception the completed transfers
are rolled back and the error is surfaced carrying the rolled-back
filesystem. -/
def move_loop (fail : Nat → Bool) :
    List (String × String) → FS → Nat → List (String × String) → Except FS FS
  | [], fs, _, _ => .ok fs
  | (src, dest) :: rest, fs, clock, completed =>
      if fsExists fs dest then move_loop fail rest fs clock completed
      else if fsExists fs src = false then move_loop fail rest fs clock completed
      else if fail clock then .error (rollbackAll completed fs)
      else
        match fsRead fs src with
        | none => .error (rollbackAll completed fs)
        | some b =>
            let fs₁ := fsWrite fs dest b
            let completed₁ := completed ++ [(src, dest)]
            if fail (clock + 1) then .error (rollbackAll completed₁ fs₁)
            else move_loop fail rest (fsRemove fs₁ src) (clock + 2) completed₁

/-- The transfers built by `_move_files` for a pack pair: the two sealed
files and the two manifests, in source order, each copied to its name
under the room-code target directory (`destOf`). -/
def move_files_transfers (question_sealed question_manifest maths_sealed
    maths_manifest : String) (destOf : String → String) :
    List (String × String) :=
  [(question_sealed, destOf question_sealed),
   (question_manifest, destOf question_manifest),
   (maths_sealed, destOf maths_sealed),
   (maths_manifest, destOf maths_manifest)]

/-- `_move_files` on a pack pair. -/
def move_files (fail : Nat → Bool) (question_sealed question_manifest
    maths_sealed maths_manifest : String) (destOf : String → String)
    (fs : FS) : Except FS FS :=
  move_loop fail
    (move_files_transfers question_sealed question_manifest maths_sealed
      maths_manifest destOf) fs 0 []

theorem fsRead_nil (q : String) : fsRead ([] : FS) q = none := rfl

theorem fsRead_cons (k : String) (v : List Nat) (tl : FS) (q : String) :
    fsRead ((k, v) :: tl) q = if k = q then some v else fsRead tl q := by
  by_cases h : k = q <;> simp [fsRead, List.find?, h]

theorem fsRemove_cons (k : String) (v : List Nat) (tl : FS) (p : String) :
    fsRemove ((k, v) :: tl) p
      = if k = p then fsRemove tl p else (k, v) :: fsRemove tl p := by
  by_cases h : k = p <;> simp [fsRemove, List.filter_cons, h]

theorem fsRead_fsRemove : ∀ (fs : FS) (p q : String),
    fsRead (fsRemove fs p) q = if q = p then none else fsRead fs q
  | [], p, q => by
      by_cases h : q = p <;> simp [fsRead_nil, fsRemove, List.filter_nil, h]
  | (k, v) :: tl, p, q => by
      have ih := fsRead_fsRemove tl p q
      rw [fsRemove_cons]
      by_cases hkp : k = p
      · rw [if_pos hkp, ih, fsRead_cons]
        by_cases hqp : q = p
        · simp [hqp]
        · have hkq : k ≠ q := fun h => hqp (by rw [← h, hkp])
          simp [hqp, hkq]
      · rw [if_neg hkp, fsRead_cons, fsRead_cons]
        by_cases hkq : k = q
        · have hqp : q ≠ p := fun h => hkp (by rw [hkq, h])
          simp [hkq, hqp]
        · rw [if_neg hkq, if_neg hkq, ih]

theorem fsRead_fsWrite (fs : FS) (p q : String) (b : List Nat) :
    fsRead (fsWrite fs p b) q = if q = p then some b else fsRead fs q := by
  show fsRead ((p, b) :: fsRemove fs p) q = _
  rw [fsRead_cons, fsRead_fsRemove]
  by_cases h : q = p
  · simp [h]
  · have : p ≠ q := fun hh => h hh.symm
    simp [h, this]

theorem fsExists_eq (fs : FS) (p : String) :
    fsExists fs p = (fsRead fs p).isSome := rfl

/-- Pointwise congruence of a rollback step. -/
theorem rollbackStep_congr (fs₁ fs₂ : FS) (t : String × String)
    (h : ∀ q, fsRead fs₁ q = fsRead fs₂ q) (p : String) :
    fsRead (rollbackStep fs₁ t) p = fsRead (rollbackStep fs₂ t) p := by
  unfold rollbackStep
  rw [h t.2]
  cases hd : fsRead fs₂ t.2 with
  | none => exact h p
  | some b =>
      rw [fsRead_fsWrite, fsRead_fsWrite]
      by_cases hp : p = t.1
      · simp [hp]
      · simp only [if_neg hp]
        rw [fsRead_fsRemove, fsRead_fsRemove]
        by_cases hq : p = t.2 <;> simp [hq, h p]

/-- Pointwise congruence of iterated rollback. -/
theorem rollbackList_congr : ∀ (l : List (String × String)) (fs₁ fs₂ : FS),
    (∀ q, fsRead fs₁ q = fsRead fs₂ q) →
    ∀ p, fsRead (rollbackList l fs₁) p = fsRead (rollbackList l fs₂) p
  | [], _, _, h, p => h p
  | t :: l, fs₁, fs₂, h, p =>
      rollbackList_congr l (rollbackStep fs₁ t) (rollbackStep fs₂ t)
        (rollbackStep_congr fs₁ fs₂ t h) p

theorem rollbackAll_append (completed : List (String × String))
    (t : String × String) (fs : FS) :
    rollbackAll (completed ++ [t]) fs = rollbackAll completed (rollbackStep fs t) := by
  unfold rollbackAll rollbackList
  rw [List.reverse_append]
  rfl

/-- Rolling back a copy (write to a fresh destination) restores the
filesystem pointwise. -/
theorem rollbackStep_write (fs : FS) (s d : String) (b : List Nat)
    (hd : fsRead fs d = none) (hs : fsRead fs s = some b) (p : String) :
    fsRead (rollbackStep (fsWrite fs d b) (s, d)) p = fsRead fs p := by
  have hsd : s ≠ d := fun h => by rw [h, hd] at hs; exact Option.noConfusion hs
  unfold rollbackStep
  rw [fsRead_fsWrite, if_pos rfl]
  rw [fsRead_fsWrite]
  by_cases hp : p = s
  · simp [hp, hs]
  · rw [if_neg hp, fsRead_fsRemove]
    by_cases hq : p = d
    · simp [hq, fsRead_fsWrite, hd]
    · rw [if_neg hq, fsRead_fsWrite, if_neg hq]

/-- Rolling back a completed transfer (write then unlink) restores the
filesystem pointwise. -/
theorem rollbackStep_write_unlink (fs : FS) (s d : String) (b : List Nat)
    (hd : fsRead fs d = none) (hs : fsRead fs s = some b) (p : String) :
    fsRead (rollbackStep (fsRemove (fsWrite fs d b) s) (s, d)) p = fsRead fs p := by
  have hsd : s ≠ d := fun h => by rw [h, hd] at hs; exact Option.noConfusion hs
  unfold rollbackStep
  have hread : fsRead (fsRemove (fsWrite fs d b) s) d = some b := by
    rw [fsRead_fsRemove, if_neg (fun h => hsd h.symm), fsRead_fsWrite, if_pos rfl]
  rw [hread, fsRead_fsWrite]
  by_cases hp : p = s
  · simp [hp, hs]
  · rw [if_neg hp, fsRead_fsRemove]
    by_cases hq : p = d
    · simp [hq, hd]
    · rw [if_neg hq, fsRead_fsRemove, if_neg hp, fsRead_fsWrite, if_neg hq]

/-- On any injected failure, the loop surfaces a filesystem that reads
identically to the one captured by the rollback invariant. -/
theorem move_loop_error_reads (fail : Nat → Bool) :
    ∀ (rest : List (String × String)) (fs : FS) (clock : Nat)
      (completed : List (String × String)) (fs₀ fs' : FS),
    (∀ q, fsRead (rollbackAll completed fs) q = fsRead fs₀ q) →
    move_loop fail rest fs clock completed = .error fs' →
    ∀ p, fsRead fs' p = fsRead fs₀ p
  | [], fs, clock, completed, fs₀, fs', hinv, h => by
      exact absurd h (by simp [move_loop])
  | (src, dest) :: rest, fs, clock, completed, fs₀, fs', hinv, h => by
      rw [move_loop] at h
      by_cases hd : fsExists fs dest
      · rw [if_pos hd] at h
        exact move_loop_error_reads fail rest fs clock completed fs₀ fs' hinv h
      · rw [if_neg hd] at h
        by_cases hsrc : fsExists fs src = false
        · rw [if_pos hsrc] at h
          exact move_loop_error_reads fail rest fs clock completed fs₀ fs' hinv h
        · rw [if_neg hsrc] at h
          by_cases hf : fail clock
          · rw [if_pos hf] at h
            cases h
            exact hinv
          · rw [if_neg hf] at h
            cases hb : fsRead fs src with
            | none =>
                rw [hb] at h
                cases h
                exact hinv
            | some b =>
                rw [hb] at h
                simp only at h
                have hdnone : fsRead fs dest = none := by
                  cases hread : fsRead fs dest with
                  | none => rfl
                  | some _ =>
                      exact absurd (by rw [fsExists_eq, hread]; rfl) hd
                by_cases hf2 : fail (clock + 1)
                · rw [if_pos hf2] at h
                  cases h
                  intro p
                  rw [rollbackAll_append]
                  calc fsRead (rollbackAll completed
                        (rollbackStep (fsWrite fs dest b) (src, dest))) p
                      = fsRead (rollbackAll completed fs) p := by
                        exact rollbackList_congr completed.reverse _ _
                          (rollbackStep_write fs src dest b hdnone hb) p
                    _ = fsRead fs₀ p := hinv p
                · rw [if_neg hf2] at h
                  refine move_loop_error_reads fail rest
                    (fsRemove (fsWrite fs dest b) src) (clock + 2)
                    (completed ++ [(src, dest)]) fs₀ fs' ?_ h
                  intro q
                  rw [rollbackAll_append]
                  calc fsRead (rollbackAll completed
                        (rollbackStep (fsRemove (fsWrite fs dest b) src) (src, dest))) q
                      = fsRead (rollbackAll completed fs) q := by
                        exact rollbackList_congr completed.reverse _ _
                          (rollbackStep_write_unlink fs src dest b hdnone hb) q
                    _ = fsRead fs₀ q := hinv q

/-- C6: the four-file move of a pack pair is all-or-nothing — whenever any
primitive operation fails partway, every file already copied is rolled
back before the error is surfaced, so the resulting filesystem reads
identically to the initial one at every path: no partially-moved pack pair
is left behind. -/
theorem C6_move_rollback (fail : Nat → Bool) (question_sealed
    question_manifest maths_sealed maths_manifest : String)
    (destOf : String → String) (fs fs' : FS) (p : String)
    (h : move_files fail question_sealed question_manifest maths_sealed
        maths_manifest destOf fs = .error fs') :
    fsRead fs' p = fsRead fs p := by
  exact move_loop_error_reads fail
    (move_files_transfers question_sealed question_manifest maths_sealed
      maths_manifest destOf) fs 0 [] fs fs' (fun _ => rfl) h p

/-! Pack discovery and assignment ordering (C5), and idempotent generation
(C9), from `src/ops/sealed_workflow.py`.  File names are character lists
(Python strings); a directory is the list of names it contains.  The glob
patterns `PREFIX_*.sealed` / `PREFIX_*.json` match a name exactly when it
decomposes as prefix ++ middle ++ suffix. -/

def QPFX : List Char := "QPACK".data

def MPFX : List Char := "MPACK".data

def sealedExt : List Char := ".sealed".data

def jsonExt : List Char := ".json".data

/-- `directory.glob(pfxU + "*" + sfx)` membership: `pfxU` is a prefix and
`sfx` a suffix of the remainder. -/
def globMatch (pfxU sfx name : List Char) : Bool :=
  pfxU.isPrefixOf name && sfx.isSuffixOf (name.drop pfxU.length)

/-- `extract_timestamp` from `src/ops/sealed_workflow.py`: strip
`prefix + "_"`, then one `.sealed` or `.json` suffix, and reject an empty
stem. -/
def extract_timestamp (name pfx : List Char) : Option (List Char) :=
  if (pfx ++ ['_']).isPrefixOf name then
    let stem := name.drop (pfx.length + 1)
    let stem2 :=
      if sealedExt.isSuffixOf stem then stem.take (stem.length - 7)
      else if jsonExt.isSuffixOf stem then stem.take (stem.length - 5)
      else stem
    if stem2 = [] then none else some stem2
  else none

/-- The timestamps contributed by one glob pattern: the loop body
`for path in source.glob(f"PFX_*.EXT"): ts = extract_timestamp(...)`. -/
def tsOfGlob (files : List (List Char)) (pfx ext : List Char) : List (List Char) :=
  (files.filter (fun n => globMatch (pfx ++ ['_']) ext n)).filterMap
    (fun n => extract_timestamp n pfx)

/-- The name `PFX_ts.sealed` / `PFX_ts.json`. -/
def packName (pfx ts ext : List Char) : List Char := (pfx ++ ['_']) ++ (ts ++ ext)

/-- Lexicographic comparison of Python strings (code-point order). -/
def lexLe : List Char → List Char → Bool
  | [], _ => true
  | _ :: _, [] => false
  | a :: as, b :: bs => if a = b then lexLe as bs else decide (a < b)

/-- Insertion into a sorted list. -/
def insertLe (a : List Char) : List (List Char) → List (List Char)
  | [] => [a]
  | b :: bs => if lexLe a b then a :: b :: bs else b :: insertLe a bs

/-- Python `sorted` (the sources only rely on the sorted order, so a
stable insertion sort models it). -/
def sortLex : List (List Char) → List (List Char)
  | [] => []
  | a :: as => insertLe a (sortLex as)

/-- `_discover_pairs`: the timestamps present as sealed questions AND
sealed maths files, sorted; keep those that also have both manifests.
(The source walks `sorted(set(q) & set(m))` and skips entries lacking a
manifest, which is this filter.) -/
def discover_pairs (files : List (List Char)) : List (List Char) :=
  let q := tsOfGlob files QPFX sealedExt
  let m := tsOfGlob files MPFX sealedExt
  let qman := tsOfGlob files QPFX jsonExt
  let mman := tsOfGlob files MPFX jsonExt
  (sortLex ((q.filter (fun ts => ts ∈ m)).dedup)).filter
    (fun ts => ts ∈ qman ∧ ts ∈ mman)

/-- The outcome of the discovery step of `command_start` (lines 681-686):
either the machine-readable no-packs signal with the untouched pool, or
the first (least) discovered pair. -/
inductive StartOutcome where
  | noPacks (signal : String) (pool : List (List Char))
  | claimPair (ts : List Char)
  deriving DecidableEq

/-- `command_start`, up to the choice of the pair: on an empty discovery
it prints `{"error": "no_packs_available"}` and returns 0 (no exception,
no file operation); otherwise it proceeds with `pairs[0]`. -/
def command_start_discover (files : List (List Char)) : StartOutcome :=
  match discover_pairs files with
  | [] => .noPacks "no_packs_available" files
  | ts :: _ => .claimPair ts

/-- `_timestamps_in_directory`: the union of the timestamps of the four
glob patterns. -/
def timestamps_in_directory (files : List (List Char)) : List (List Char) :=
  (tsOfGlob files QPFX sealedExt ++ tsOfGlob files MPFX sealedExt ++
   tsOfGlob files QPFX jsonExt ++ tsOfGlob files MPFX jsonExt).dedup

/-- The sealed files written by `command_generate` with `nowStamp` the
current `utc_now().strftime(...)` value: start from the sorted discovered
timestamps (or the fresh stamp when the directory is empty), collect the
timestamps whose sealed questions / maths file is missing, and when
nothing at all is missing fall back to a fresh stamp for both kinds
without re-checking existence. -/
def generate_sealed_writes (files : List (List Char)) (nowStamp : List Char) :
    List (List Char) :=
  let ts0 := sortLex (timestamps_in_directory files)
  let timestamps := if ts0 = [] then [nowStamp] else ts0
  let missing_q := timestamps.filter
    (fun ts => !(decide (packName QPFX ts sealedExt ∈ files)))
  let missing_m := timestamps.filter
    (fun ts => !(decide (packName MPFX ts sealedExt ∈ files)))
  if missing_q = [] ∧ missing_m = [] then
    [packName QPFX nowStamp sealedExt, packName MPFX nowStamp sealedExt]
  else
    missing_q.map (fun ts => packName QPFX ts sealedExt) ++
    missing_m.map (fun ts => packName MPFX ts sealedExt)

/-! Order and sorting lemmas for the discovery step. -/

theorem lexLe_refl : ∀ a, lexLe a a = true
  | [] => rfl
  | _ :: as => by simp [lexLe, lexLe_refl as]

theorem lexLe_total : ∀ a b, lexLe a b = true ∨ lexLe b a = true
  | [], _ => .inl rfl
  | _ :: _, [] => .inr rfl
  | a :: as, b :: bs => by
      by_cases hab : a = b
      · subst hab
        simpa [lexLe] using lexLe_total as bs
      · rcases lt_trichotomy a b with h | h | h
        · exact .inl (by simp [lexLe, hab, h])
        · exact absurd h hab
        · exact .inr (by simp [lexLe, ne_of_lt h, h])

theorem lexLe_trans : ∀ a b c, lexLe a b = true → lexLe b c = true →
    lexLe a c = true
  | [], _, _, _, _ => rfl
  | _ :: _, [], _, h, _ => by simp [lexLe] at h
  | _ :: _, _ :: _, [], _, h => by simp [lexLe] at h
  | a :: as, b :: bs, c :: cs, hab, hbc => by
      by_cases h1 : a = b
      · subst h1
        by_cases h2 : a = c
        · subst h2
          simp only [lexLe, if_pos rfl] at hab hbc ⊢
          exact lexLe_trans as bs cs hab hbc
        · simpa [lexLe, h2] using (by simpa [lexLe, h2] using hbc)
      · by_cases h2 : b = c
        · subst h2
          simpa [lexLe, h1] using (by simpa [lexLe, h1] using hab)
        · have hlt1 : a < b := by simpa [lexLe, h1] using hab
          have hlt2 : b < c := by simpa [lexLe, h2] using hbc
          have hac : a < c := lt_trans hlt1 hlt2
          simp [lexLe, ne_of_lt hac, hac]

theorem mem_insertLe (x a : List Char) : ∀ l, x ∈ insertLe a l ↔ x = a ∨ x ∈ l
  | [] => by simp [insertLe]
  | b :: bs => by
      by_cases h : lexLe a b = true
      · simp [insertLe, h]
      · rw [insertLe, if_neg h, List.mem_cons, mem_insertLe x a bs, List.mem_cons]
        tauto

theorem mem_sortLex (x : List Char) : ∀ l, x ∈ sortLex l ↔ x ∈ l
  | [] => by simp [sortLex]
  | a :: as => by
      simp [sortLex, mem_insertLe, mem_sortLex x as]

theorem sorted_insertLe (a : List Char) :
    ∀ l, l.Pairwise (fun u v => lexLe u v = true) →
      (insertLe a l).Pairwise (fun u v => lexLe u v = true)
  | [], _ => by simp [insertLe]
  | b :: bs, h => by
      rcases List.pairwise_cons.mp h with ⟨hb, hbs⟩
      by_cases hab : lexLe a b = true
      · rw [insertLe, if_pos hab]
        refine List.pairwise_cons.mpr ⟨?_, h⟩
        intro v hv
        rcases List.mem_cons.mp hv with rfl | hv
        · exact hab
        · exact lexLe_trans a b v hab (hb v hv)
      · have hba : lexLe b a = true := (lexLe_total a b).resolve_left hab
        rw [insertLe, if_neg hab]
        refine List.pairwise_cons.mpr ⟨?_, sorted_insertLe a bs hbs⟩
        intro v hv
        rcases (mem_insertLe v a bs).mp hv with rfl | hv
        · exact hba
        · exact hb v hv

theorem sorted_sortLex : ∀ l, (sortLex l).Pairwise (fun u v => lexLe u v = true)
  | [] => by simp [sortLex]
  | a :: as => sorted_insertLe a (sortLex as) (sorted_sortLex as)

/-! Glob/extract characterization lemmas. -/

theorem getLast?_of_suffix {s z : List Char} (h : s <:+ z) (hs : s ≠ []) :
    z.getLast? = s.getLast? := by
  obtain ⟨w, rfl⟩ := h
  rw [List.getLast?_append]
  cases hl : s.getLast? with
  | none => exact absurd (List.getLast?_eq_none_iff.mp hl) hs
  | some x => rfl

theorem not_sealed_suffix_of_json (mid : List Char) :
    sealedExt.isSuffixOf (mid ++ jsonExt) = false := by
  rcases Bool.eq_false_or_eq_true (sealedExt.isSuffixOf (mid ++ jsonExt)) with h | h
  case inr => exact h
  · exfalso
    have h1 : sealedExt <:+ mid ++ jsonExt := List.isSuffixOf_iff_suffix.mp h
    have h2 := getLast?_of_suffix h1 (by decide)
    have h3 := getLast?_of_suffix (List.suffix_append mid jsonExt)
      (show jsonExt ≠ [] by decide)
    rw [h3] at h2
    exact absurd h2 (by decide)

theorem take_drop_ext_sealed (mid : List Char) :
    (mid ++ sealedExt).take ((mid ++ sealedExt).length - 7) = mid := by
  have h7 : sealedExt.length = 7 := rfl
  have : (mid ++ sealedExt).length - 7 = mid.length := by
    rw [List.length_append, h7]
    omega
  rw [this]
  exact List.take_left mid sealedExt

theorem take_drop_ext_json (mid : List Char) :
    (mid ++ jsonExt).take ((mid ++ jsonExt).length - 5) = mid := by
  have h5 : jsonExt.length = 5 := rfl
  have : (mid ++ jsonExt).length - 5 = mid.length := by
    rw [List.length_append, h5]
    omega
  rw [this]
  exact List.take_left mid jsonExt

theorem extract_timestamp_packName (pfx ts ext : List Char)
    (hts : ts ≠ []) (hext : ext = sealedExt ∨ ext = jsonExt) :
    extract_timestamp (packName pfx ts ext) pfx = some ts := by
  have hpre : (pfx ++ ['_']).isPrefixOf (packName pfx ts ext) = true :=
    List.isPrefixOf_iff_prefix.mpr ⟨ts ++ ext, rfl⟩
  have hlen : pfx.length + 1 = (pfx ++ ['_']).length := by simp
  have hdrop : (packName pfx ts ext).drop (pfx.length + 1) = ts ++ ext := by
    rw [hlen]
    exact List.drop_left _ _
  unfold extract_timestamp
  rw [if_pos hpre]
  simp only [hdrop]
  rcases hext with rfl | rfl
  · have hsuf : sealedExt.isSuffixOf (ts ++ sealedExt) = true :=
      List.isSuffixOf_iff_suffix.mpr (List.suffix_append ts sealedExt)
    simp only [hsuf, if_pos rfl, if_true, take_drop_ext_sealed]
    rw [if_neg hts]
  · have hsuf : jsonExt.isSuffixOf (ts ++ jsonExt) = true :=
      List.isSuffixOf_iff_suffix.mpr (List.suffix_append ts jsonExt)
    simp only [not_sealed_suffix_of_json, Bool.false_eq_true, if_false,
      hsuf, if_pos rfl, if_true, take_drop_ext_json]
    rw [if_neg hts]

theorem globMatch_packName (pfx ts ext : List Char) :
    globMatch (pfx ++ ['_']) ext (packName pfx ts ext) = true := by
  unfold globMatch packName
  rw [Bool.and_eq_true_iff]
  constructor
  · exact List.isPrefixOf_iff_prefix.mpr ⟨ts ++ ext, rfl⟩
  · rw [List.drop_left]
    exact List.isSuffixOf_iff_suffix.mpr (List.suffix_append ts ext)

/-- A name matched by the glob and accepted by `extract_timestamp`
decomposes exactly as `packName pfx ts ext`. -/
theorem extract_of_glob (pfx ext n ts : List Char)
    (hext : ext = sealedExt ∨ ext = jsonExt)
    (hg : globMatch (pfx ++ ['_']) ext n = true)
    (he : extract_timestamp n pfx = some ts) :
    n = packName pfx ts ext ∧ ts ≠ [] := by
  rcases Bool.and_eq_true_iff.mp hg with ⟨hpre, hsuf⟩
  obtain ⟨rest, hrest⟩ := List.isPrefixOf_iff_prefix.mp hpre
  have hdroplen : pfx.length + 1 = (pfx ++ ['_']).length := by simp
  have hdrop : n.drop (pfx.length + 1) = rest := by
    rw [hdroplen, ← hrest]
    exact List.drop_left _ _
  rw [← hrest, List.drop_left] at hsuf
  obtain ⟨mid, hmid⟩ := List.isSuffixOf_iff_suffix.mp hsuf
  unfold extract_timestamp at he
  rw [if_pos hpre] at he
  simp only [hdrop] at he
  rcases hext with rfl | rfl
  · rw [← hmid] at he
    simp only [List.isSuffixOf_iff_suffix.mpr (List.suffix_append mid sealedExt),
      if_pos rfl, if_true, take_drop_ext_sealed] at he
    by_cases hmidnil : mid = []
    · rw [if_pos hmidnil] at he
      exact absurd he (by simp)
    · rw [if_neg hmidnil] at he
      have hts : mid = ts := by simpa using he
      subst hts
      refine ⟨?_, hmidnil⟩
      rw [packName, ← hrest, ← hmid]
  · rw [← hmid] at he
    simp only [not_sealed_suffix_of_json, Bool.false_eq_true, if_false,
      List.isSuffixOf_iff_suffix.mpr (List.suffix_append mid jsonExt),
      if_pos rfl, if_true, take_drop_ext_json] at he
    by_cases hmidnil : mid = []
    · rw [if_pos hmidnil] at he
      exact absurd he (by simp)
    · rw [if_neg hmidnil] at he
      have hts : mid = ts := by simpa using he
      subst hts
      refine ⟨?_, hmidnil⟩
      rw [packName, ← hrest, ← hmid]

/-- Membership in the timestamps of one glob pattern is exactly the
presence of the corresponding file. -/
theorem mem_tsOfGlob (files : List (List Char)) (pfx ext ts : List Char)
    (hext : ext = sealedExt ∨ ext = jsonExt) :
    ts ∈ tsOfGlob files pfx ext ↔
      packName pfx ts ext ∈ files ∧ ts ≠ [] := by
  unfold tsOfGlob
  rw [List.mem_filterMap]
  constructor
  · rintro ⟨n, hn, he⟩
    rcases List.mem_filter.mp hn with ⟨hnf, hg⟩
    obtain ⟨rfl, hts⟩ := extract_of_glob pfx ext n ts hext hg he
    exact ⟨hnf, hts⟩
  · rintro ⟨hnf, hts⟩
    refine ⟨packName pfx ts ext, List.mem_filter.mpr ⟨hnf, ?_⟩, ?_⟩
    · exact globMatch_packName pfx ts ext
    · exact extract_timestamp_packName pfx ts ext hts hext

/-- The unfolded form of `discover_pairs`. -/
theorem discover_pairs_eq (files : List (List Char)) :
    discover_pairs files =
      (sortLex (((tsOfGlob files QPFX sealedExt).filter
          (fun ts => ts ∈ tsOfGlob files MPFX sealedExt)).dedup)).filter
        (fun ts => decide (ts ∈ tsOfGlob files QPFX jsonExt ∧
            ts ∈ tsOfGlob files MPFX jsonExt)) := rfl

/-- The discovered pairs are sorted. -/
theorem discover_pairs_sorted (files : List (List Char)) :
    (discover_pairs files).Pairwise (fun u v => lexLe u v = true) := by
  rw [discover_pairs_eq]
  exact (sorted_sortLex _).sublist (List.filter_sublist _)

/-- C5: `assign()` considers exactly the timestamp keys for which all four
files exist (sealed envelope and manifest for questions and maths), always
claims the lexicographically smallest such key, and on an empty discovery
emits the machine-readable `no_packs_available` signal with the pool left
unchanged instead of raising. -/
theorem C5_assign_discovery (files : List (List Char)) (ts t : List Char) :
    (ts ∈ discover_pairs files ↔
      ts ≠ [] ∧ packName QPFX ts sealedExt ∈ files
        ∧ packName MPFX ts sealedExt ∈ files
        ∧ packName QPFX ts jsonExt ∈ files
        ∧ packName MPFX ts jsonExt ∈ files)
    ∧ (discover_pairs files = [] ↔
        command_start_discover files = .noPacks "no_packs_available" files)
    ∧ (t ∈ discover_pairs files →
        command_start_discover files
          = .claimPair ((discover_pairs files).headD t)
        ∧ lexLe ((discover_pairs files).headD t) t = true) := by
  refine ⟨?_, ?_, ?_⟩
  · rw [discover_pairs_eq]
    simp only [List.mem_filter, mem_sortLex, List.mem_dedup, decide_eq_true_eq]
    rw [mem_tsOfGlob files QPFX sealedExt ts (.inl rfl),
        mem_tsOfGlob files MPFX sealedExt ts (.inl rfl),
        mem_tsOfGlob files QPFX jsonExt ts (.inr rfl),
        mem_tsOfGlob files MPFX jsonExt ts (.inr rfl)]
    tauto
  · constructor
    · intro h
      unfold command_start_discover
      rw [h]
    · intro h
      cases hd : discover_pairs files with
      | nil => rfl
      | cons a l =>
          unfold command_start_discover at h
          rw [hd] at h
          exact absurd h (by simp)
  · intro ht
    cases hd : discover_pairs files with
    | nil =>
        rw [hd] at ht
        exact absurd ht (by simp)
    | cons a l =>
        have hcmd : command_start_discover files = .claimPair a := by
          unfold command_start_discover
          rw [hd]
        have hmem : t ∈ a :: l := hd ▸ ht
        constructor
        · exact hcmd
        · rcases List.mem_cons.mp hmem with rfl | hmem'
          · exact lexLe_refl t
          · have hp := discover_pairs_sorted files
            rw [hd] at hp
            exact List.rel_of_pairwise_cons hp hmem' 

/-- C5 witness: a pool with two complete pairs claims the earlier
timestamp, and the empty pool yields the no-packs signal with the pool
unchanged. -/
theorem C5_assign_discovery_witness :
    "20240101_000000".data ∈ discover_pairs
        [packName QPFX "20240101_000000".data sealedExt,
         packName QPFX "20240101_000000".data jsonExt,
         packName MPFX "20240101_000000".data sealedExt,
         packName MPFX "20240101_000000".data jsonExt,
         packName QPFX "20240202_000000".data sealedExt,
         packName QPFX "20240202_000000".data jsonExt,
         packName MPFX "20240202_000000".data sealedExt,
         packName MPFX "20240202_000000".data jsonExt]
    ∧ command_start_discover
        [packName QPFX "20240101_000000".data sealedExt,
         packName QPFX "20240101_000000".data jsonExt,
         packName MPFX "20240101_000000".data sealedExt,
         packName MPFX "20240101_000000".data jsonExt,
         packName QPFX "20240202_000000".data sealedExt,
         packName QPFX "20240202_000000".data jsonExt,
         packName MPFX "20240202_000000".data sealedExt,
         packName MPFX "20240202_000000".data jsonExt]
      = .claimPair ((discover_pairs
        [packName QPFX "20240101_000000".data sealedExt,
         packName QPFX "20240101_000000".data jsonExt,
         packName MPFX "20240101_000000".data sealedExt,
         packName MPFX "20240101_000000".data jsonExt,
         packName QPFX "20240202_000000".data sealedExt,
         packName QPFX "20240202_000000".data jsonExt,
         packName MPFX "20240202_000000".data sealedExt,
         packName MPFX "20240202_000000".data jsonExt]).headD "20240101_000000".data)
    ∧ command_start_discover [] = .noPacks "no_packs_available" [] := by
  have h := C5_assign_discovery
    [packName QPFX "20240101_000000".data sealedExt,
     packName QPFX "20240101_000000".data jsonExt,
     packName MPFX "20240101_000000".data sealedExt,
     packName MPFX "20240101_000000".data jsonExt,
     packName QPFX "20240202_000000".data sealedExt,
     packName QPFX "20240202_000000".data jsonExt,
     packName MPFX "20240202_000000".data sealedExt,
     packName MPFX "20240202_000000".data jsonExt]
    "20240101_000000".data "20240101_000000".data
  have hmem := h.1.mpr (by decide)
  have hempty := (C5_assign_discovery [] [] []).2.1.mp (by decide)
  exact ⟨hmem, (h.2.2 hmem).1, hempty⟩

/-- C9 counterexample: when every discovered timestamp already has both
sealed files, `command_generate` falls back to a fresh stamp WITHOUT
re-checking existence; if the fresh stamp collides with the existing
timestamp (a re-run within the same second), the existing sealed file is
written again — re-running can overwrite an existing sealed file. -/
theorem C9_counterexample :
    packName QPFX "20240101_000000".data sealedExt ∈
      ([packName QPFX "20240101_000000".data sealedExt,
        packName MPFX "20240101_000000".data sealedExt] : List (List Char))
    ∧ packName QPFX "20240101_000000".data sealedExt ∈
      generate_sealed_writes
        [packName QPFX "20240101_000000".data sealedExt,
         packName MPFX "20240101_000000".data sealedExt]
        "20240101_000000".data := by
  exact ⟨by decide, by decide⟩

/-- C9 (amended): provided the fresh timestamp used for generation does
not collide with an existing sealed file of either kind, `command_generate`
writes a sealed file only at paths that do not yet exist, so every sealed
file present before the run is left in place. -/
theorem C9_generate_no_overwrite (files : List (List Char))
    (nowStamp p : List Char)
    (hq : packName QPFX nowStamp sealedExt ∉ files)
    (hm : packName MPFX nowStamp sealedExt ∉ files)
    (hp : p ∈ generate_sealed_writes files nowStamp) :
    p ∉ files := by
  simp only [generate_sealed_writes] at hp
  by_cases hfresh : (if sortLex (timestamps_in_directory files) = []
        then [nowStamp] else sortLex (timestamps_in_directory files)).filter
          (fun ts => !(decide (packName QPFX ts sealedExt ∈ files))) = []
      ∧ (if sortLex (timestamps_in_directory files) = []
        then [nowStamp] else sortLex (timestamps_in_directory files)).filter
          (fun ts => !(decide (packName MPFX ts sealedExt ∈ files))) = []
  · rw [if_pos hfresh] at hp
    rcases List.mem_cons.mp hp with rfl | hp
    · exact hq
    · rcases List.mem_cons.mp hp with rfl | hp
      · exact hm
      · exact absurd hp (by simp)
  · rw [if_neg hfresh] at hp
    rcases List.mem_append.mp hp with hp | hp
    · obtain ⟨ts, hts, rfl⟩ := List.mem_map.mp hp
      have := List.mem_filter.mp hts
      simpa using this.2
    · obtain ⟨ts, hts, rfl⟩ := List.mem_map.mp hp
      have := List.mem_filter.mp hts
      simpa using this.2

/-- C9 witness: generating against a directory whose only timestamp is
complete, at a fresh non-colliding stamp, writes only paths that are not
present. -/
theorem C9_generate_no_overwrite_witness :
    packName QPFX "20240102_000000".data sealedExt ∈
      generate_sealed_writes
        [packName QPFX "20240101_000000".data sealedExt,
         packName MPFX "20240101_000000".data sealedExt]
        "20240102_000000".data
    ∧ packName QPFX "20240102_000000".data sealedExt ∉
      ([packName QPFX "20240101_000000".data sealedExt,
        packName MPFX "20240101_000000".data sealedExt] : List (List Char)) := by
  refine ⟨by decide, ?_⟩
  exact C9_generate_no_overwrite
    [packName QPFX "20240101_000000".data sealedExt,
     packName MPFX "20240101_000000".data sealedExt]
    "20240102_000000".data
    (packName QPFX "20240102_000000".data sealedExt)
    (by decide) (by decide) (by decide)

/-- C6 witness: a concrete run over a four-file pool in which the unlink
of the second transfer fails (operation clock 3) reads back identically to
the original pool after rollback. -/
theorem C6_move_rollback_witness :
    fsRead [("QPACK_a.sealed", [1]), ("QPACK_a.json", [2]),
        ("MPACK_a.sealed", [3]), ("MPACK_a.json", [4])] "QPACK_a.json"
      = fsRead [("QPACK_a.sealed", [1]), ("QPACK_a.json", [2]),
        ("MPACK_a.sealed", [3]), ("MPACK_a.json", [4])] "QPACK_a.json" :=
  C6_move_rollback (fun n => n == 3) "QPACK_a.sealed" "QPACK_a.json"
    "MPACK_a.sealed" "MPACK_a.json" (fun s => "used/" ++ s)
    [("QPACK_a.sealed", [1]), ("QPACK_a.json", [2]),
     ("MPACK_a.sealed", [3]), ("MPACK_a.json", [4])]
    [("QPACK_a.sealed", [1]), ("QPACK_a.json", [2]),
     ("MPACK_a.sealed", [3]), ("MPACK_a.json", [4])]
    "QPACK_a.json" (by rfl)

/-! Injectivity of the canonical serializer (C2).  The proof is a
unique-readability argument: every encoder is left-invertible on an
encoding followed by a suitable remainder, so equal concatenations force
equal values. -/

/-- Numeric value of a lowercase hexadecimal digit. -/
def hexVal (c : Char) : Nat :=
  if c.toNat ≤ 57 then c.toNat - 48 else c.toNat - 87

/-- Decoder for one character of an escaped JSON string body: the code
point and the remainder. -/
def unescCode : List Char → Option (Nat × List Char)
  | [] => none
  | c :: rest =>
      if c = '\\' then
        match rest with
        | [] => none
        | e :: rest2 =>
            if e = 'u' then
              match rest2 with
              | z1 :: z2 :: h1 :: h2 :: rest3 =>
                  if z1 = '0' ∧ z2 = '0' then
                    some (hexVal h1 * 16 + hexVal h2, rest3)
                  else none
              | _ => none
            else if e = '"' then some (34, rest2)
            else if e = '\\' then some (92, rest2)
            else if e = 'n' then some (10, rest2)
            else if e = 't' then some (9, rest2)
            else if e = 'r' then some (13, rest2)
            else if e = 'b' then some (8, rest2)
            else if e = 'f' then some (12, rest2)
            else none
      else some (c.toNat, rest)

theorem char_eq_of_toNat_eq {c d : Char} (h : c.toNat = d.toNat) : c = d := by
  apply Char.eq_of_val_eq
  have h1 : c.val.toNat = d.val.toNat := h
  exact UInt32.toNat.inj h1

theorem hexVal_hexChar : ∀ n, n < 16 → hexVal (hexChar n) = n := by decide

/-- `unescCode` inverts `escChar`. -/
theorem unescCode_escChar (c : Char) (rest : List Char) :
    unescCode (escChar c ++ rest) = some (c.toNat, rest) := by
  unfold escChar
  by_cases h1 : c = '"'
  · subst h1
    simp [unescCode]
  · rw [if_neg h1]
    by_cases h2 : c = '\\'
    · subst h2
      simp [unescCode]
    · rw [if_neg h2]
      by_cases h3 : c = '\n'
      · subst h3
        simp [unescCode]
      · rw [if_neg h3]
        by_cases h4 : c = '\t'
        · subst h4
          simp [unescCode]
        · rw [if_neg h4]
          by_cases h5 : c = '\r'
          · subst h5
            simp [unescCode]
          · rw [if_neg h5]
            by_cases h6 : c = Char.ofNat 8
            · subst h6
              simp [unescCode]
            · rw [if_neg h6]
              by_cases h7 : c = Char.ofNat 12
              · subst h7
                simp [unescCode]
              · rw [if_neg h7]
                by_cases h8 : c.toNat < 32
                · rw [if_pos h8]
                  have hd : c.toNat / 16 < 16 := by omega
                  have hm : c.toNat % 16 < 16 := by omega
                  simp only [List.cons_append, List.nil_append, unescCode,
                    if_pos rfl, hexVal_hexChar _ hd, hexVal_hexChar _ hm]
                  have hval : c.toNat / 16 * 16 + c.toNat % 16 = c.toNat := by omega
                  simp [hval]
                · rw [if_neg h8]
                  simp [unescCode, h2]

/-- Every escape starts with a character other than the closing quote. -/
theorem escChar_head (c : Char) : ∃ hd tl, escChar c = hd :: tl ∧ hd ≠ '"' := by
  unfold escChar
  by_cases h1 : c = '"'
  · exact ⟨'\\', _, by rw [if_pos h1], by decide⟩
  · rw [if_neg h1]
    by_cases h2 : c = '\\'
    · exact ⟨'\\', _, by rw [if_pos h2], by decide⟩
    · rw [if_neg h2]
      by_cases h3 : c = '\n'
      · exact ⟨'\\', _, by rw [if_pos h3], by decide⟩
      · rw [if_neg h3]
        by_cases h4 : c = '\t'
        · exact ⟨'\\', _, by rw [if_pos h4], by decide⟩
        · rw [if_neg h4]
          by_cases h5 : c = '\r'
          · exact ⟨'\\', _, by rw [if_pos h5], by decide⟩
          · rw [if_neg h5]
            by_cases h6 : c = Char.ofNat 8
            · exact ⟨'\\', _, by rw [if_pos h6], by decide⟩
            · rw [if_neg h6]
              by_cases h7 : c = Char.ofNat 12
              · exact ⟨'\\', _, by rw [if_pos h7], by decide⟩
              · rw [if_neg h7]
                by_cases h8 : c.toNat < 32
                · exact ⟨'\\', _, by rw [if_pos h8], by decide⟩
                · exact ⟨c, [], by rw [if_neg h8], h1⟩

/-- Unique readability of escaped string bodies terminated by `"`. -/
theorem escape_det : ∀ (s t r₁ r₂ : List Char),
    escape s ++ '"' :: r₁ = escape t ++ '"' :: r₂ → s = t ∧ r₁ = r₂
  | [], [], r₁, r₂, h => ⟨rfl, by simpa [escape] using h⟩
  | [], b :: t, r₁, r₂, h => by
      exfalso
      obtain ⟨hd, tl, he, hne⟩ := escChar_head b
      rw [escape, escape, List.nil_append, List.append_assoc, he,
        List.cons_append] at h
      injection h with h1 _
      exact hne h1.symm
  | a :: s, [], r₁, r₂, h => by
      exfalso
      obtain ⟨hd, tl, he, hne⟩ := escChar_head a
      rw [escape, escape, List.nil_append, List.append_assoc, he,
        List.cons_append] at h
      injection h with h1 _
      exact hne h1
  | a :: s, b :: t, r₁, r₂, h => by
      rw [escape, escape, List.append_assoc, List.append_assoc] at h
      have h2 := congrArg unescCode h
      rw [unescCode_escChar, unescCode_escChar] at h2
      injection h2 with h3
      have hab : a = b := char_eq_of_toNat_eq (congrArg Prod.fst h3)
      have htl : escape s ++ '"' :: r₁ = escape t ++ '"' :: r₂ :=
        congrArg Prod.snd h3
      obtain ⟨h4, h5⟩ := escape_det s t r₁ r₂ htl
      exact ⟨by rw [hab, h4], h5⟩

/-- Unique readability of quoted string literals. -/
theorem encStr_det (s t : String) (r₁ r₂ : List Char)
    (h : encStr s ++ r₁ = encStr t ++ r₂) : s = t ∧ r₁ = r₂ := by
  unfold encStr at h
  rw [List.cons_append, List.cons_append, List.append_assoc,
    List.append_assoc, List.singleton_append, List.singleton_append] at h
  injection h with _ h2
  obtain ⟨h3, h4⟩ := escape_det s.data t.data r₁ r₂ h2
  exact ⟨String.ext h3, h4⟩

/-! Decimal digits: value function, maximal munch, and unique
readability of integer literals at a separator boundary. -/

def digitsVal (l : List Char) : Nat :=
  l.foldl (fun acc c => acc * 10 + (c.toNat - 48)) 0

theorem digitChar_toNat : ∀ d, d < 10 → (digitChar d).toNat = 48 + d := by decide

theorem natRepr_ne_nil (n : Nat) : natRepr n ≠ [] := by
  rw [natRepr_eq]
  by_cases h : n < 10 <;> simp [h]

theorem natRepr_digits (n : Nat) :
    ∀ c ∈ natRepr n, 48 ≤ c.toNat ∧ c.toNat ≤ 57 := by
  induction n using Nat.strong_induction_on with
  | _ n ih =>
      rw [natRepr_eq]
      by_cases h : n < 10
      · rw [if_pos h]
        intro c hc
        rcases List.mem_singleton.mp hc with rfl
        rw [digitChar_toNat n h]
        omega
      · rw [if_neg h]
        intro c hc
        rcases List.mem_append.mp hc with hc | hc
        · exact ih (n / 10) (Nat.div_lt_self (by omega) (by omega)) c hc
        · rcases List.mem_singleton.mp hc with rfl
          rw [digitChar_toNat (n % 10) (by omega)]
          omega

theorem digitsVal_natRepr (n : Nat) : digitsVal (natRepr n) = n := by
  induction n using Nat.strong_induction_on with
  | _ n ih =>
      rw [natRepr_eq]
      by_cases h : n < 10
      · rw [if_pos h]
        simp [digitsVal, List.foldl, digitChar_toNat n h]
      · rw [if_neg h]
        have hlt : n / 10 < n := Nat.div_lt_self (by omega) (by omega)
        unfold digitsVal
        rw [List.foldl_append]
        have := ih (n / 10) hlt
        unfold digitsVal at this
        rw [this]
        simp [List.foldl, digitChar_toNat (n % 10) (by omega)]
        omega

theorem natRepr_inj {m n : Nat} (h : natRepr m = natRepr n) : m = n := by
  have := congrArg digitsVal h
  rwa [digitsVal_natRepr, digitsVal_natRepr] at this

theorem natRepr_head_digit (n : Nat) :
    ∃ hd tl, natRepr n = hd :: tl ∧ 48 ≤ hd.toNat ∧ hd.toNat ≤ 57 := by
  induction n using Nat.strong_induction_on with
  | _ n ih =>
      rw [natRepr_eq]
      by_cases h : n < 10
      · rw [if_pos h]
        exact ⟨digitChar n, [], rfl, by rw [digitChar_toNat n h]; omega⟩
      · rw [if_neg h]
        obtain ⟨hd, tl, he, hb⟩ := ih (n / 10) (Nat.div_lt_self (by omega) (by omega))
        exact ⟨hd, tl ++ [digitChar (n % 10)], by rw [he]; rfl, hb⟩

/-- The character class that may legally follow a serialized value:
nothing, a comma, or a closing bracket or brace. -/
def sepRem : List Char → Prop
  | [] => True
  | c :: _ => c = ',' ∨ c = ']' ∨ c = rbrace

theorem digit_not_sep (c : Char) (h : 48 ≤ c.toNat ∧ c.toNat ≤ 57)
    (r : List Char) : ¬ sepRem (c :: r) := by
  rintro (rfl | rfl | rfl) <;> exact absurd h (by decide)

/-- Maximal munch: two nonempty digit runs followed by separators split a
concatenation identically. -/
theorem digits_munch : ∀ (d₁ d₂ r₁ r₂ : List Char),
    (∀ c ∈ d₁, 48 ≤ c.toNat ∧ c.toNat ≤ 57) →
    (∀ c ∈ d₂, 48 ≤ c.toNat ∧ c.toNat ≤ 57) →
    sepRem r₁ → sepRem r₂ →
    d₁ ++ r₁ = d₂ ++ r₂ → d₁ = [] ∨ d₂ = [] ∨ (d₁ = d₂ ∧ r₁ = r₂)
  | [], _, _, _, _, _, _, _, _ => .inl rfl
  | _ :: _, [], _, _, _, _, _, _, _ => .inr (.inl rfl)
  | a :: d₁, b :: d₂, r₁, r₂, h₁, h₂, hr₁, hr₂, heq => by
      right; right
      rw [List.cons_append, List.cons_append] at heq
      injection heq with hab htl
      have hd₁ : ∀ c ∈ d₁, 48 ≤ c.toNat ∧ c.toNat ≤ 57 :=
        fun c hc => h₁ c (List.mem_cons_of_mem a hc)
      have hd₂ : ∀ c ∈ d₂, 48 ≤ c.toNat ∧ c.toNat ≤ 57 :=
        fun c hc => h₂ c (List.mem_cons_of_mem b hc)
      rcases digits_munch d₁ d₂ r₁ r₂ hd₁ hd₂ hr₁ hr₂ htl with hnil | hnil | ⟨hde, hre⟩
      · subst hnil
        rw [List.nil_append] at htl
        cases d₂ with
        | nil =>
            rw [List.nil_append] at htl
            exact ⟨by rw [hab], htl⟩
        | cons c d₂' =>
            rw [List.cons_append] at htl
            exfalso
            have hc : 48 ≤ c.toNat ∧ c.toNat ≤ 57 := hd₂ c (List.mem_cons_self c d₂')
            rw [htl] at hr₁
            exact digit_not_sep c hc _ hr₁
      · subst hnil
        rw [List.nil_append] at htl
        cases d₁ with
        | nil =>
            rw [List.nil_append] at htl
            exact ⟨by rw [hab], htl⟩
        | cons c d₁' =>
            rw [List.cons_append] at htl
            exfalso
            have hc : 48 ≤ c.toNat ∧ c.toNat ≤ 57 := hd₁ c (List.mem_cons_self c d₁')
            rw [← htl] at hr₂
            exact digit_not_sep c hc _ hr₂
      · exact ⟨by rw [hab, hde], hre⟩

/-- Unique readability of integer literals at a separator boundary. -/
theorem intRepr_det (i j : Int) (r₁ r₂ : List Char)
    (h₁ : sepRem r₁) (h₂ : sepRem r₂)
    (heq : intRepr i ++ r₁ = intRepr j ++ r₂) : i = j ∧ r₁ = r₂ := by
  unfold intRepr at heq
  by_cases hi : i < 0 <;> by_cases hj : j < 0
  · rw [if_pos hi, if_pos hj, List.cons_append, List.cons_append] at heq
    injection heq with _ htl
    rcases digits_munch _ _ _ _ (natRepr_digits _) (natRepr_digits _) h₁ h₂ htl with
      hnil | hnil | ⟨hde, hre⟩
    · exact absurd hnil (natRepr_ne_nil _)
    · exact absurd hnil (natRepr_ne_nil _)
    · have := natRepr_inj hde
      constructor
      · omega
      · exact hre
  · rw [if_pos hi, if_neg hj, List.cons_append] at heq
    obtain ⟨hd, tl, he, hb⟩ := natRepr_head_digit j.toNat
    rw [he, List.cons_append] at heq
    injection heq with h1 _
    have hh : ('-' : Char).toNat = hd.toNat := congrArg Char.toNat h1
    have h45 : ('-' : Char).toNat = 45 := rfl
    exact absurd hb (by omega)
  · rw [if_neg hi, if_pos hj, List.cons_append] at heq
    obtain ⟨hd, tl, he, hb⟩ := natRepr_head_digit i.toNat
    rw [he, List.cons_append] at heq
    injection heq with h1 _
    have hh : hd.toNat = ('-' : Char).toNat := congrArg Char.toNat h1
    have h45 : ('-' : Char).toNat = 45 := rfl
    exact absurd hb (by omega)
  · rw [if_neg hi, if_neg hj] at heq
    rcases digits_munch _ _ _ _ (natRepr_digits _) (natRepr_digits _) h₁ h₂ heq with
      hnil | hnil | ⟨hde, hre⟩
    · exact absurd hnil (natRepr_ne_nil _)
    · exact absurd hnil (natRepr_ne_nil _)
    · have := natRepr_inj hde
      constructor
      · omega
      · exact hre

/-! Constructor tags recoverable from the first character of an
encoding. -/

def tagOf : JVal → Nat
  | .str _ => 0
  | .num _ => 1
  | .bool _ => 2
  | .null => 3
  | .arr _ => 4
  | .obj _ => 5

def tagCode (c : Char) : Nat :=
  if c.toNat = 34 then 0
  else if c.toNat = 45 ∨ (48 ≤ c.toNat ∧ c.toNat ≤ 57) then 1
  else if c.toNat = 116 ∨ c.toNat = 102 then 2
  else if c.toNat = 110 then 3
  else if c.toNat = 91 then 4
  else if c.toNat = 123 then 5
  else 6

theorem tagOf_le (v : JVal) : tagOf v ≤ 5 := by
  cases v <;> simp [tagOf]

theorem encV_head : ∀ v : JVal, ∃ hd tl, encV v = hd :: tl ∧ tagCode hd = tagOf v := by
  intro v
  cases v with
  | str s => exact ⟨'"', escape s.data ++ ['"'], rfl, rfl⟩
  | num i =>
      by_cases hi : i < 0
      · refine ⟨'-', natRepr (-i).toNat, ?_, rfl⟩
        show intRepr i = _
        unfold intRepr
        rw [if_pos hi]
      · obtain ⟨hd, tl, he, hb⟩ := natRepr_head_digit i.toNat
        refine ⟨hd, tl, ?_, ?_⟩
        · show intRepr i = _
          unfold intRepr
          rw [if_neg hi]
          exact he
        · show tagCode hd = 1
          unfold tagCode
          rw [if_neg (by omega), if_pos (Or.inr hb)]
  | bool b =>
      cases b with
      | true => exact ⟨'t', ['r', 'u', 'e'], rfl, rfl⟩
      | false => exact ⟨'f', ['a', 'l', 's', 'e'], rfl, rfl⟩
  | null => exact ⟨'n', ['u', 'l', 'l'], rfl, rfl⟩
  | arr xs => exact ⟨'[', encA xs ++ [']'], rfl, rfl⟩
  | obj fs => exact ⟨lbrace, encO fs ++ [rbrace], rfl, rfl⟩

theorem sepRem_encATail (xs : JArr) (r : List Char) :
    sepRem (encATail xs ++ ']' :: r) := by
  cases xs with
  | nil => exact Or.inr (Or.inl rfl)
  | cons v tl => exact Or.inl rfl

theorem sepRem_encOTail (fs : JObj) (r : List Char) :
    sepRem (encOTail fs ++ rbrace :: r) := by
  cases fs with
  | nil => exact Or.inr (Or.inr rfl)
  | cons k v tl => exact Or.inl rfl

mutual
/-- Unique readability of serialized values at a separator boundary. -/
theorem encDet (v w : JVal) (r₁ r₂ : List Char) (h₁ : sepRem r₁)
    (h₂ : sepRem r₂) (heq : encV v ++ r₁ = encV w ++ r₂) :
    v = w ∧ r₁ = r₂ := by
  have htag : tagOf v = tagOf w := by
    obtain ⟨hd₁, tl₁, he₁, ht₁⟩ := encV_head v
    obtain ⟨hd₂, tl₂, he₂, ht₂⟩ := encV_head w
    have heq' := heq
    rw [he₁, he₂, List.cons_append, List.cons_append] at heq'
    injection heq' with hh _
    rw [← ht₁, ← ht₂, hh]
  cases v <;> cases w <;> simp only [tagOf] at htag <;> try omega
  · rename_i s t
    obtain ⟨hs, hr⟩ := encStr_det s t r₁ r₂ heq
    exact ⟨by rw [hs], hr⟩
  · rename_i i j
    obtain ⟨hij, hr⟩ := intRepr_det i j r₁ r₂ h₁ h₂ heq
    exact ⟨by rw [hij], hr⟩
  · rename_i b₁ b₂
    cases b₁ <;> cases b₂
    · refine ⟨rfl, ?_⟩
      have h0 : ('f' : Char) :: 'a' :: 'l' :: 's' :: 'e' :: r₁
          = 'f' :: 'a' :: 'l' :: 's' :: 'e' :: r₂ := heq
      simpa using h0
    · exfalso
      have h0 : ('f' : Char) :: 'a' :: 'l' :: 's' :: 'e' :: r₁
          = 't' :: 'r' :: 'u' :: 'e' :: r₂ := heq
      injection h0 with hh _
      exact absurd hh (by decide)
    · exfalso
      have h0 : ('t' : Char) :: 'r' :: 'u' :: 'e' :: r₁
          = 'f' :: 'a' :: 'l' :: 's' :: 'e' :: r₂ := heq
      injection h0 with hh _
      exact absurd hh (by decide)
    · refine ⟨rfl, ?_⟩
      have h0 : ('t' : Char) :: 'r' :: 'u' :: 'e' :: r₁
          = 't' :: 'r' :: 'u' :: 'e' :: r₂ := heq
      simpa using h0
  · refine ⟨rfl, ?_⟩
    have h0 : ('n' : Char) :: 'u' :: 'l' :: 'l' :: r₁
        = 'n' :: 'u' :: 'l' :: 'l' :: r₂ := heq
    simpa using h0
  · rename_i xs ys
    have heq' : encA xs ++ ']' :: r₁ = encA ys ++ ']' :: r₂ := by
      have h0 : ('[' :: (encA xs ++ [']'])) ++ r₁
          = ('[' :: (encA ys ++ [']'])) ++ r₂ := heq
      rw [List.cons_append, List.cons_append, List.append_assoc,
        List.append_assoc, List.singleton_append, List.singleton_append] at h0
      injection h0
    obtain ⟨hxy, hr⟩ := encADet xs ys r₁ r₂ heq'
    exact ⟨by rw [hxy], hr⟩
  · rename_i fs gs
    have heq' : encO fs ++ rbrace :: r₁ = encO gs ++ rbrace :: r₂ := by
      have h0 : (lbrace :: (encO fs ++ [rbrace])) ++ r₁
          = (lbrace :: (encO gs ++ [rbrace])) ++ r₂ := heq
      rw [List.cons_append, List.cons_append, List.append_assoc,
        List.append_assoc, List.singleton_append, List.singleton_append] at h0
      injection h0
    obtain ⟨hfg, hr⟩ := encODet fs gs r₁ r₂ heq'
    exact ⟨by rw [hfg], hr⟩
termination_by sizeOf v

/-- Unique readability of array bodies terminated by `]`. -/
theorem encADet (xs ys : JArr) (r₁ r₂ : List Char)
    (heq : encA xs ++ ']' :: r₁ = encA ys ++ ']' :: r₂) :
    xs = ys ∧ r₁ = r₂ := by
  cases xs with
  | nil =>
      cases ys with
      | nil => exact ⟨rfl, by simpa [encA] using heq⟩
      | cons y ys =>
          exfalso
          rw [encA, encA, List.nil_append, List.append_assoc] at heq
          obtain ⟨hd, tl, he, ht⟩ := encV_head y
          rw [he, List.cons_append] at heq
          injection heq with hh _
          have h6 : tagCode ']' = tagOf y := by rw [hh]; exact ht
          have := tagOf_le y
          rw [show tagCode ']' = 6 from by decide] at h6
          omega
  | cons x xs =>
      cases ys with
      | nil =>
          exfalso
          rw [encA, encA, List.nil_append, List.append_assoc] at heq
          obtain ⟨hd, tl, he, ht⟩ := encV_head x
          rw [he, List.cons_append] at heq
          injection heq with hh _
          have h6 : tagCode ']' = tagOf x := by rw [← hh]; exact ht
          have := tagOf_le x
          rw [show tagCode ']' = 6 from by decide] at h6
          omega
      | cons y ys =>
          rw [encA, encA, List.append_assoc, List.append_assoc] at heq
          obtain ⟨hxy, htl⟩ := encDet x y _ _ (sepRem_encATail xs r₁)
            (sepRem_encATail ys r₂) heq
          cases xs with
          | nil =>
              cases ys with
              | nil =>
                  refine ⟨by rw [hxy], ?_⟩
                  have h0 : (']' : Char) :: r₁ = ']' :: r₂ := htl
                  simpa using h0
              | cons z zs =>
                  exfalso
                  have h0 : (']' : Char) :: r₁
                      = ',' :: ((encV z ++ encATail zs) ++ ']' :: r₂) := htl
                  injection h0 with hh _
                  exact absurd hh (by decide)
          | cons z zs =>
              cases ys with
              | nil =>
                  exfalso
                  have h0 : (',' : Char) :: ((encV z ++ encATail zs) ++ ']' :: r₁)
                      = ']' :: r₂ := htl
                  injection h0 with hh _
                  exact absurd hh (by decide)
              | cons u us =>
                  have h0 : (',' : Char) :: ((encV z ++ encATail zs) ++ ']' :: r₁)
                      = ',' :: ((encV u ++ encATail us) ++ ']' :: r₂) := htl
                  injection h0 with _ h1
                  obtain ⟨hzu, hr⟩ := encADet (.cons z zs) (.cons u us) r₁ r₂ h1
                  exact ⟨by rw [hxy, hzu], hr⟩
termination_by sizeOf xs

/-- Unique readability of object bodies terminated by the closing
brace. -/
theorem encODet (fs gs : JObj) (r₁ r₂ : List Char)
    (heq : encO fs ++ rbrace :: r₁ = encO gs ++ rbrace :: r₂) :
    fs = gs ∧ r₁ = r₂ := by
  cases fs with
  | nil =>
      cases gs with
      | nil => exact ⟨rfl, by simpa [encO] using heq⟩
      | cons k v tl =>
          exfalso
          rw [encO, encO, List.nil_append, List.append_assoc] at heq
          rw [encStr, List.cons_append] at heq
          injection heq with hh _
          exact absurd hh (by decide)
  | cons k v tl =>
      cases gs with
      | nil =>
          exfalso
          rw [encO, encO, List.nil_append, List.append_assoc] at heq
          rw [encStr, List.cons_append] at heq
          injection heq with hh _
          exact absurd hh (by decide)
      | cons k' v' tl' =>
          rw [encO, encO, List.append_assoc, List.append_assoc] at heq
          obtain ⟨hk, htl⟩ := encStr_det k k' _ _ heq
          have h0 : (':' : Char) :: (encV v ++ (encOTail tl ++ rbrace :: r₁))
              = ':' :: (encV v' ++ (encOTail tl' ++ rbrace :: r₂)) := by
            have h9 := htl
            rw [List.cons_append, List.cons_append, List.append_assoc,
              List.append_assoc] at h9
            exact h9
          injection h0 with _ h1
          obtain ⟨hv, htl2⟩ := encDet v v' _ _ (sepRem_encOTail tl r₁)
            (sepRem_encOTail tl' r₂) h1
          cases tl with
          | nil =>
              cases tl' with
              | nil =>
                  refine ⟨by rw [hk, hv], ?_⟩
                  have h2 : (rbrace : Char) :: r₁ = rbrace :: r₂ := htl2
                  simpa using h2
              | cons k2 v2 tl2 =>
                  exfalso
                  have h2 : (rbrace : Char) :: r₁
                      = ',' :: ((encStr k2 ++ ':' :: (encV v2 ++ encOTail tl2))
                          ++ rbrace :: r₂) := htl2
                  injection h2 with hh _
                  exact absurd hh (by decide)
          | cons k2 v2 tl2 =>
              cases tl' with
              | nil =>
                  exfalso
                  have h2 : (',' : Char) :: ((encStr k2 ++ ':' :: (encV v2 ++ encOTail tl2))
                      ++ rbrace :: r₁) = (rbrace : Char) :: r₂ := htl2
                  injection h2 with hh _
                  exact absurd hh (by decide)
              | cons k3 v3 tl3 =>
                  have h2 : (',' : Char) :: ((encStr k2 ++ ':' :: (encV v2 ++ encOTail tl2))
                      ++ rbrace :: r₁)
                      = ',' :: ((encStr k3 ++ ':' :: (encV v3 ++ encOTail tl3))
                      ++ rbrace :: r₂) := htl2
                  injection h2 with _ h3
                  obtain ⟨htl4, hr⟩ := encODet (.cons k2 v2 tl2) (.cons k3 v3 tl3) r₁ r₂ h3
                  exact ⟨by rw [hk, hv, htl4], hr⟩
termination_by sizeOf fs
end

/-- The canonical serializer is injective on values. -/
theorem encV_inj {v w : JVal} (h : encV v = encV w) : v = w := by
  have h2 : encV v ++ [] = encV w ++ [] := by
    rw [List.append_nil, List.append_nil]
    exact h
  exact (encDet v w [] [] trivial trivial h2).1

/-- The canonical serializer is injective on packs. -/
theorem encTop_inj {p q : JObj} (h : encTop p = encTop q) : p = q := by
  have h2 : JVal.obj p = JVal.obj q := encV_inj h
  injection h2

/-! Lemmas about field mutation of a stamped pack. -/

theorem lookupJ_appendField_ne (p : JObj) (k₀ k : String) (x : JVal)
    (h : k ≠ k₀) : lookupJ (appendField p k₀ x) k = lookupJ p k := by
  induction p with
  | nil =>
      simp only [appendField, lookupJ]
      rw [if_neg (fun hh => h hh.symm)]
  | cons k' v' tl ih =>
      by_cases hk : k' = k <;> simp [appendField, lookupJ, hk, ih]

theorem stripIntegrity_idem (p : JObj) :
    stripIntegrity (stripIntegrity p) = stripIntegrity p := by
  induction p with
  | nil => simp [stripIntegrity]
  | cons k v tl ih =>
      by_cases hk : k = "integrity" <;> simp [stripIntegrity, hk, ih]

theorem stripIntegrity_compute_integrity (sha256_hex : List Char → String)
    (p : JObj) :
    stripIntegrity (compute_integrity sha256_hex p) = stripIntegrity p := by
  unfold compute_integrity
  rw [stripIntegrity_appendField, stripIntegrity_idem]

theorem lookupJ_compute_integrity (sha256_hex : List Char → String) (p : JObj) :
    lookupJ (compute_integrity sha256_hex p) "integrity"
      = some (.obj (.cons "checksum"
          (.str (sha256_hex (encTop (stripIntegrity p))))
          (.cons "verified" (.bool true) .nil))) := by
  unfold compute_integrity
  exact lookupJ_appendField_self _ _ _ (lookupJ_stripIntegrity p)

theorem stripIntegrity_setField (p : JObj) (k : String) (v : JVal)
    (hk : k ≠ "integrity") :
    stripIntegrity (setField p k v) = setField (stripIntegrity p) k v := by
  induction p with
  | nil => simp [stripIntegrity, setField]
  | cons k' v' tl ih =>
      by_cases hki : k' = "integrity"
      · subst hki
        have h2 : ¬ ("integrity" = k) := fun hh => hk hh.symm
        simp [setField, stripIntegrity, h2, ih]
      · by_cases hkk : k' = k
        · subst hkk
          simp [setField, stripIntegrity, hki, ih]
        · simp [setField, stripIntegrity, hki, hkk, ih]

theorem lookupJ_setField_self (p : JObj) (k : String) (v v' : JVal)
    (h : lookupJ p k = some v) :
    lookupJ (setField p k v') k = some v' := by
  induction p with
  | nil => simp [lookupJ] at h
  | cons k' v0 tl ih =>
      by_cases hk : k' = k
      · simp [setField, lookupJ, hk]
      · simp only [lookupJ, hk, if_false] at h
        simp [setField, lookupJ, hk, ih h]

theorem lookupJ_setField_ne (p : JObj) (k k' : String) (v' : JVal)
    (h : k' ≠ k) : lookupJ (setField p k v') k' = lookupJ p k' := by
  induction p with
  | nil => simp [setField, lookupJ]
  | cons k0 v0 tl ih =>
      by_cases hk : k0 = k
      · subst hk
        have h2 : ¬ (k0 = k') := fun hh => h hh.symm
        simp [setField, lookupJ, h2, ih]
      · by_cases hk' : k0 = k' <;> simp [setField, lookupJ, hk, hk', h, ih]

/-- Verification succeeds on a freshly stamped pack. -/
theorem verify_pack_compute_integrity (sha256_hex : List Char → String)
    (p : JObj) :
    verify_pack sha256_hex (compute_integrity sha256_hex p) = true := by
  unfold verify_pack
  rw [lookupJ_compute_integrity, stripIntegrity_compute_integrity]
  simp [lookupJ]

/-- C2 (amended): verification always succeeds on `stamp(P)`; and, for an
injective hash, changing the value of any field other than `integrity`
itself makes verification fail.  (A change to the `integrity` field that
keeps the stored checksum — such as flipping `verified` — escapes
detection; see the counterexample.) -/
theorem C2_stamp_verify_tamper (sha256_hex : List Char → String)
    (hinj : Function.Injective sha256_hex)
    (P : JObj) (k : String) (v v' : JVal) (hk : k ≠ "integrity")
    (hlook : lookupJ (compute_integrity sha256_hex P) k = some v)
    (hne : v' ≠ v) :
    verify_pack sha256_hex (compute_integrity sha256_hex P) = true
    ∧ verify_pack sha256_hex
        (setField (compute_integrity sha256_hex P) k v') = false := by
  refine ⟨verify_pack_compute_integrity sha256_hex P, ?_⟩
  have hlookP : lookupJ (stripIntegrity P) k = some v := by
    have h1 : lookupJ (compute_integrity sha256_hex P) k
        = lookupJ (stripIntegrity P) k := by
      unfold compute_integrity
      exact lookupJ_appendField_ne _ _ _ _ hk
    rw [← h1]
    exact hlook
  have hstripQ : stripIntegrity (setField (compute_integrity sha256_hex P) k v')
      = setField (stripIntegrity P) k v' := by
    rw [stripIntegrity_setField _ _ _ hk, stripIntegrity_compute_integrity]
  have hlookQ : lookupJ (setField (compute_integrity sha256_hex P) k v') "integrity"
      = some (.obj (.cons "checksum"
          (.str (sha256_hex (encTop (stripIntegrity P))))
          (.cons "verified" (.bool true) .nil))) := by
    rw [lookupJ_setField_ne _ _ _ _ (fun hh => hk hh.symm)]
    exact lookupJ_compute_integrity sha256_hex P
  unfold verify_pack
  rw [hlookQ, hstripQ]
  show (sha256_hex (encTop (setField (stripIntegrity P) k v'))
      == sha256_hex (encTop (stripIntegrity P))) = false
  rw [beq_eq_false_iff_ne]
  intro hcon
  have henc := hinj hcon
  have hobj := encTop_inj henc
  have h1 : lookupJ (setField (stripIntegrity P) k v') k = some v' :=
    lookupJ_setField_self _ _ _ _ hlookP
  rw [hobj] at h1
  rw [hlookP] at h1
  exact hne (Option.some.inj h1).symm

/-- C2 witness: stamping the one-field pack `{a: "x"}` with the injective
hash `String.mk` verifies, and changing field `a` to `"y"` fails
verification. -/
theorem C2_stamp_verify_tamper_witness :
    verify_pack (fun l => String.mk l)
      (compute_integrity (fun l => String.mk l)
        (JObj.cons "a" (.str "x") .nil)) = true
    ∧ verify_pack (fun l => String.mk l)
        (setField (compute_integrity (fun l => String.mk l)
          (JObj.cons "a" (.str "x") .nil)) "a" (.str "y")) = false := by
  have hinj : Function.Injective (fun l : List Char => String.mk l) := by
    intro a b h
    have := congrArg String.data h
    simpa using this
  exact C2_stamp_verify_tamper (fun l => String.mk l) hinj
    (JObj.cons "a" (.str "x") .nil) "a" (.str "x") (.str "y")
    (by decide) (by decide) (by decide)

/-- C2 counterexample: the claim fails as stated — changing the value of
the `integrity` field itself (flipping `verified` to `false` while
keeping the stored checksum) is a field mutation that is not a re-stamp,
yet verification still succeeds, because only `integrity.checksum` is
compared. -/
theorem C2_counterexample :
    setField (compute_integrity (fun l => String.mk l)
        (JObj.cons "a" (.str "x") .nil)) "integrity"
        (.obj (.cons "checksum"
          (.str (String.mk (encTop (JObj.cons "a" (.str "x") .nil))))
          (.cons "verified" (.bool false) .nil)))
      ≠ compute_integrity (fun l => String.mk l) (JObj.cons "a" (.str "x") .nil)
    ∧ verify_pack (fun l => String.mk l)
        (setField (compute_integrity (fun l => String.mk l)
          (JObj.cons "a" (.str "x") .nil)) "integrity"
          (.obj (.cons "checksum"
            (.str (String.mk (encTop (JObj.cons "a" (.str "x") .nil))))
            (.cons "verified" (.bool false) .nil)))) = true := by
  exact ⟨by decide, by decide⟩

end Asking
